import Mathlib

/-!
Verification of the multicross nonogram core: a shallow embedding of the
line solver (`deriveLineHints`, `buildLineMasks`), the grid verifier
(`countSolutions`, `hasUniqueSolution`), the candidate generator
(`randomGrid`, the worker search loop) and the worker-pool coordinator,
together with proofs about them.

JavaScript numbers are embedded as `Nat`; the JS shift operators `<<` and
`>>` reduce their shift count modulo 32, which the embedding makes explicit
(`% 32` on every shift count).  Integer bit-vectors produced by the solver
are represented by the natural number with the same 32-bit pattern.
-/

set_option maxHeartbeats 1600000

namespace Multicross

/-! ## Line solver (src puzzle module) -/

/-- JS bit test `(x >> k) & 1` (shift count wraps modulo 32). -/
def jsBit (x k : Nat) : Nat := (x >>> (k % 32)) &&& 1

/-- Accumulator loop of `deriveLineHints`: scans the line keeping the length
`count` of the current run of filled (truthy, i.e. nonzero) cells. -/
def deriveHintsAux : List Nat → Nat → List Nat
  | [], count => if count ≠ 0 then [count] else []
  | cell :: rest, count =>
    if cell ≠ 0 then deriveHintsAux rest (count + 1)
    else if count ≠ 0 then count :: deriveHintsAux rest 0
    else deriveHintsAux rest 0

/-- `deriveLineHints(line)` from the source: lengths of maximal runs of
filled cells, left to right. -/
def deriveLineHints (line : List Nat) : List Nat := deriveHintsAux line 0

/-- `transpose(grid) = grid[0].map((_, colIndex) => grid.map(row => row[colIndex]))`. -/
def transpose (grid : List (List Nat)) : List (List Nat) :=
  (List.range (grid.headD []).length).map (fun colIndex => grid.map (fun row => row.getD colIndex 0))

/-- Inner loop of `place`:
`for offset in [0, blockLength): nextMask |= 1 << (position + offset)`,
with the JS 32-bit wrap of the shift count. -/
def addBlock (mask position blockLength : Nat) : Nat :=
  (List.range blockLength).foldl (fun m offset => m ||| (1 <<< ((position + offset) % 32))) mask

/-- The recursive `place` of `buildLineMasks`.  The first `Nat` argument is
the current block length `hints[hintIndex]`, the list is the remaining
hints; `remaining = remainingSums[hintIndex+1] + trailingSpace` of the
source equals `rest.sum + rest.length`.  The position loop
`for position in [start, length - blockLength - remaining]` becomes a
`List.range'` of `length + 1 - (blockLength + remaining + start)` positions. -/
def place (length : Nat) : Nat → List Nat → Nat → Nat → List Nat
  | blockLength, [], start, mask =>
    (List.range' start (length + 1 - (blockLength + 0 + start))).map
      (fun position => addBlock mask position blockLength)
  | blockLength, b2 :: rest2, start, mask =>
    (List.range' start (length + 1 - (blockLength + ((b2 :: rest2).sum + (b2 :: rest2).length) + start))).flatMap
      (fun position => place length b2 rest2 (position + blockLength + 1) (addBlock mask position blockLength))

/-- `buildLineMasks(length, hints)`: all bit-encoded placements of the hint
blocks in a line of the given length (the spec's `buildLineOptions`). -/
def buildLineMasks (length : Nat) (hints : List Nat) : List Nat :=
  match hints with
  | [] => [0]
  | b :: rest => place length b rest 0 0

/-! ## Specification-side encoding of lines -/

/-- The (unbounded) bit-vector encoding of a line: bit `i` is set iff cell
`i` is filled (nonzero).  This is the spec's notion of a line option. -/
def encodeLine : List Nat → Nat
  | [] => 0
  | cell :: rest => (if cell ≠ 0 then 1 else 0) + 2 * encodeLine rest

/-- Decode `length` cells out of a mask, cell `i` being `(m >> i) & 1`
without any 32-bit wrap (the canonical line of a mask). -/
def decodeLine (m length : Nat) : List Nat :=
  (List.range length).map (fun i => (m >>> i) &&& 1)

/-- A 0/1 line. -/
def IsBoolLine (line : List Nat) : Prop := ∀ cell ∈ line, cell = 0 ∨ cell = 1

instance (line : List Nat) : Decidable (IsBoolLine line) := by
  unfold IsBoolLine; infer_instance

/-! ## Basic facts about `deriveHintsAux` -/

theorem deriveHintsAux_replicate_zero (z : Nat) (l : List Nat) :
    deriveHintsAux (List.replicate z 0 ++ l) 0 = deriveHintsAux l 0 := by
  induction z with
  | zero => simp
  | succ n ih => simpa [deriveHintsAux] using ih

theorem deriveHintsAux_replicate_one (b : Nat) (l : List Nat) (c : Nat) :
    deriveHintsAux (List.replicate b 1 ++ l) c = deriveHintsAux l (c + b) := by
  induction b generalizing c with
  | zero => simp
  | succ n ih =>
    simp only [List.replicate_succ, List.cons_append, deriveHintsAux]
    rw [if_pos (by decide), show (List.replicate n 1).append l = List.replicate n 1 ++ l from rfl, ih]
    ring_nf

theorem deriveHintsAux_zero_cons (l : List Nat) (c : Nat) :
    deriveHintsAux (0 :: l) c = if c ≠ 0 then c :: deriveHintsAux l 0 else deriveHintsAux l 0 := by
  simp [deriveHintsAux]

/-- A line derives the empty hint sequence iff it has no filled cell. -/
theorem deriveHintsAux_eq_nil (l : List Nat) (c : Nat) :
    deriveHintsAux l c = [] ↔ c = 0 ∧ ∀ x ∈ l, x = 0 := by
  induction l generalizing c with
  | nil => by_cases h : c = 0 <;> simp [deriveHintsAux, h]
  | cons cell rest ih =>
    by_cases hc : cell = 0
    · subst hc
      by_cases h : c = 0 <;> simp [deriveHintsAux, h, ih]
    · simp only [deriveHintsAux, if_pos hc]
      rw [ih]
      constructor
      · rintro ⟨h, -⟩; omega
      · rintro ⟨-, hall⟩; exact absurd (hall cell (by simp)) hc

theorem deriveLineHints_eq_nil (l : List Nat) :
    deriveLineHints l = [] ↔ ∀ x ∈ l, x = 0 := by
  unfold deriveLineHints
  rw [deriveHintsAux_eq_nil]
  simp

/-- Every derived hint is positive. -/
theorem deriveHintsAux_pos (l : List Nat) (c : Nat) :
    ∀ h ∈ deriveHintsAux l c, 0 < h := by
  induction l generalizing c with
  | nil =>
    intro h hh
    simp only [deriveHintsAux] at hh
    split at hh
    · simp only [List.mem_singleton] at hh; omega
    · simp at hh
  | cons cell rest ih =>
    intro h hh
    simp only [deriveHintsAux] at hh
    split at hh
    · exact ih _ _ hh
    · split at hh
      · rcases List.mem_cons.1 hh with h1 | h2
        · omega
        · exact ih _ _ h2
      · exact ih _ _ hh

/-- Sum plus count of derived hints is bounded by the line length plus one
(blocks plus mandatory gaps fit in the line). -/
theorem deriveHintsAux_sum_length (l : List Nat) (c : Nat) :
    (deriveHintsAux l c).sum + (deriveHintsAux l c).length ≤ c + l.length + 1 := by
  induction l generalizing c with
  | nil =>
    simp only [deriveHintsAux]
    split <;> simp
  | cons cell rest ih =>
    simp only [deriveHintsAux]
    split
    · have := ih (c + 1); simpa [Nat.add_comm, Nat.add_left_comm] using this
    · split
      · have := ih 0
        simp only [List.sum_cons, List.length_cons]
        omega
      · have := ih 0
        simp only [List.length_cons]
        omega

theorem deriveLineHints_sum_length (l : List Nat) :
    (deriveLineHints l).sum + (deriveLineHints l).length ≤ l.length + 1 :=
  by simpa using deriveHintsAux_sum_length l 0

/-- Forward composition: leading zeros, then a run of `b` ones closed by a
zero, contribute hint `b`. -/
theorem deriveLineHints_block_cons (z b : Nat) (hb : 0 < b) (l : List Nat) :
    deriveLineHints (List.replicate z 0 ++ List.replicate b 1 ++ (0 :: l)) = b :: deriveLineHints l := by
  unfold deriveLineHints
  rw [List.append_assoc, deriveHintsAux_replicate_zero, deriveHintsAux_replicate_one]
  rw [deriveHintsAux_zero_cons]
  simp [Nat.pos_iff_ne_zero.mp hb]

theorem deriveHintsAux_replicate_zero_tail (k c : Nat) (hc : c ≠ 0) :
    deriveHintsAux (List.replicate k 0) c = [c] := by
  cases k with
  | zero => simp [deriveHintsAux, hc]
  | succ n =>
    simp only [List.replicate_succ, deriveHintsAux_zero_cons, if_pos hc]
    have : deriveHintsAux (List.replicate n 0) 0 = [] := by
      rw [deriveHintsAux_eq_nil]
      simp
    rw [this]

/-- Forward composition: a single block padded by zeros derives `[b]`. -/
theorem deriveLineHints_single_block (z b k : Nat) (hb : 0 < b) :
    deriveLineHints (List.replicate z 0 ++ List.replicate b 1 ++ List.replicate k 0) = [b] := by
  unfold deriveLineHints
  rw [List.append_assoc, deriveHintsAux_replicate_zero, deriveHintsAux_replicate_one]
  rw [deriveHintsAux_replicate_zero_tail _ _ (by omega)]
  simp

/-- Relation between the part of a line following its first block and the
remaining hints. -/
def TailRel (l : List Nat) (hs : List Nat) : Prop :=
  (l = [] ∧ hs = []) ∨ (∃ t, l = 0 :: t ∧ deriveLineHints t = hs)

/-- Decomposition with a run accumulator: if scanning `l` with a running
count `c > 0` yields `b :: hs`, the line starts with `b - c` more ones. -/
theorem deriveHintsAux_decomp (l : List Nat) (c b : Nat) (hs : List Nat)
    (hbool : IsBoolLine l) (hc : 0 < c) (h : deriveHintsAux l c = b :: hs) :
    c ≤ b ∧ ∃ l₂, l = List.replicate (b - c) 1 ++ l₂ ∧ TailRel l₂ hs := by
  induction l generalizing c with
  | nil =>
    simp only [deriveHintsAux, if_pos (by omega : c ≠ 0)] at h
    obtain ⟨rfl, rfl⟩ : b = c ∧ hs = [] := by
      constructor <;> [exact (List.cons.injEq .. ▸ h).1.symm; exact (List.cons.injEq .. ▸ h).2.symm]
    exact ⟨le_refl _, [], by simp, Or.inl ⟨rfl, rfl⟩⟩
  | cons cell rest ih =>
    rcases hbool cell (by simp) with rfl | rfl
    · rw [deriveHintsAux_zero_cons, if_pos (by omega : c ≠ 0)] at h
      obtain ⟨rfl, hrest⟩ : b = c ∧ deriveHintsAux rest 0 = hs := by
        constructor <;> [exact (List.cons.injEq .. ▸ h).1.symm; exact (List.cons.injEq .. ▸ h).2]
      refine ⟨le_refl _, 0 :: rest, by simp, Or.inr ⟨rest, rfl, hrest⟩⟩
    · simp only [deriveHintsAux, if_pos (by decide : (1:Nat) ≠ 0)] at h
      obtain ⟨hcb, l₂, hrest, hrel⟩ :=
        ih (c + 1) (fun x hx => hbool x (List.mem_cons_of_mem _ hx)) (by omega) h
      refine ⟨by omega, l₂, ?_, hrel⟩
      rw [hrest]
      have : b - c = (b - (c + 1)) + 1 := by omega
      rw [this, List.replicate_succ, List.cons_append]

/-- Every 0/1 line with a nonempty derived hint sequence decomposes as
zeros, the first block, and a tail related to the remaining hints. -/
theorem deriveLineHints_decomp (l : List Nat) (b : Nat) (hs : List Nat)
    (hbool : IsBoolLine l) (h : deriveLineHints l = b :: hs) :
    0 < b ∧ ∃ z l₂, l = List.replicate z 0 ++ List.replicate b 1 ++ l₂ ∧ TailRel l₂ hs := by
  have hb : 0 < b := by
    have hmem : b ∈ deriveLineHints l := by rw [h]; exact List.mem_cons_self b hs
    exact deriveHintsAux_pos l 0 b hmem
  refine ⟨hb, ?_⟩
  induction l with
  | nil => simp [deriveLineHints, deriveHintsAux] at h
  | cons cell rest ih =>
    rcases hbool cell (by simp) with rfl | rfl
    · have h2 : deriveLineHints rest = b :: hs := by
        unfold deriveLineHints at h ⊢
        rwa [deriveHintsAux_zero_cons, if_neg (by omega)] at h
      obtain ⟨z, l₂, hdec, hrel⟩ := ih (fun x hx => hbool x (by simp [hx])) h2
      exact ⟨z + 1, l₂, by simp [hdec, List.replicate_succ], hrel⟩
    · unfold deriveLineHints at h
      simp only [deriveHintsAux, if_pos (by decide : (1:Nat) ≠ 0)] at h
      obtain ⟨hcb, l₂, hrest, hrel⟩ :=
        deriveHintsAux_decomp rest 1 b hs (fun x hx => hbool x (by simp [hx])) (by omega) h
      refine ⟨0, l₂, ?_, hrel⟩
      have : (1:Nat) :: List.replicate (b - 1) 1 = List.replicate b 1 := by
        rw [← List.replicate_succ]
        congr 1
        omega
      simp only [List.replicate_zero, List.nil_append, hrest, ← this, List.cons_append]

/-! ## Bit-level toolkit -/

/-- Bits of `a + c <<< n` split at position `n` when `a < 2^n`. -/
theorem testBit_add_shiftLeft (n : Nat) : ∀ (a c i : Nat), a < 2 ^ n →
    (a + c <<< n).testBit i = if i < n then a.testBit i else c.testBit (i - n) := by
  induction n with
  | zero =>
    intro a c i h
    interval_cases a
    simp [Nat.shiftLeft_eq]
  | succ n ih =>
    intro a c i h
    have key : a + c <<< (n + 1) = 2 * (a / 2 + c <<< n) + a % 2 := by
      rw [Nat.shiftLeft_succ_inside]
      have h2 : (2 * c) <<< n = 2 * (c <<< n) := by
        simp [Nat.shiftLeft_eq]; ring
      omega
    cases i with
    | zero =>
      rw [key, if_pos (Nat.succ_pos n)]
      simp only [Nat.testBit_zero, decide_eq_decide]
      omega
    | succ i =>
      rw [key, Nat.testBit_add_one]
      have hdiv : (2 * (a / 2 + c <<< n) + a % 2) / 2 = a / 2 + c <<< n := by omega
      rw [hdiv, ih (a / 2) c i (by omega)]
      rcases Nat.lt_or_ge i n with hin | hin
      · rw [if_pos hin, if_pos (by omega), Nat.testBit_add_one]
      · rw [if_neg (by omega), if_neg (by omega)]
        congr 1
        omega

/-- Bit characterization of the specification encoding of a line. -/
theorem encodeLine_testBit (l : List Nat) : ∀ i : Nat,
    (encodeLine l).testBit i = decide (l.getD i 0 ≠ 0) := by
  induction l with
  | nil => intro i; simp [encodeLine]
  | cons cell rest ih =>
    intro i
    have key : encodeLine (cell :: rest) = (if cell ≠ 0 then 1 else 0) + (encodeLine rest) <<< 1 := by
      simp only [encodeLine, Nat.shiftLeft_eq]
      ring_nf
    rw [key, testBit_add_shiftLeft 1 _ _ _ (by split <;> omega)]
    cases i with
    | zero =>
      simp only [if_pos (by omega : (0:Nat) < 1)]
      by_cases hc : cell = 0 <;> simp [hc]
    | succ i =>
      rw [if_neg (by omega)]
      simpa using ih i

theorem encodeLine_lt_two_pow (l : List Nat) : encodeLine l < 2 ^ l.length := by
  apply Nat.lt_pow_two_of_testBit
  intro i hi
  rw [encodeLine_testBit, List.getD_eq_default _ _ (by omega : l.length ≤ i)]
  simp

/-- `getD` on a replicate. -/
theorem getD_replicate {α : Type} (n : Nat) (a d : α) (i : Nat) :
    (List.replicate n a).getD i d = if i < n then a else d := by
  rcases Nat.lt_or_ge i n with h | h
  · rw [if_pos h, List.getD_eq_getElem _ _ (by simpa using h), List.getElem_replicate]
  · rw [if_neg (by omega), List.getD_eq_default _ _ (by simpa using h)]

/-- Bits of `addBlock`: when the block fits below bit 32, wrap never
happens and the block occupies bits `[position, position + blockLength)`. -/
theorem addBlock_testBit (b : Nat) : ∀ (mask p i : Nat), p + b ≤ 32 →
    (addBlock mask p b).testBit i = (mask.testBit i || decide (p ≤ i ∧ i < p + b)) := by
  induction b with
  | zero =>
    intro mask p i h
    simp [addBlock]
  | succ n ih =>
    intro mask p i h
    have key : addBlock mask p (n + 1) = (addBlock mask p n) ||| (1 <<< ((p + n) % 32)) := by
      unfold addBlock
      rw [List.range_succ, List.foldl_append]
      simp
    rw [key, Nat.mod_eq_of_lt (by omega : p + n < 32)]
    rw [Nat.testBit_or, ih mask p i (by omega), Nat.one_shiftLeft, Nat.testBit_two_pow]
    cases hmt : mask.testBit i
    · simp only [Bool.false_or, Bool.or_assoc]
      rw [show ∀ a b : Prop, ∀ ha : Decidable a, ∀ hb : Decidable b,
            (decide a || decide b) = decide (a ∨ b) from fun a b ha hb => by simp]
      rw [decide_eq_decide]
      omega
    · simp

theorem getD_all_zero (l : List Nat) (h : ∀ c ∈ l, c = 0) (j : Nat) : l.getD j 0 = 0 := by
  rcases Nat.lt_or_ge j l.length with hj | hj
  · rw [List.getD_eq_getElem _ _ hj]
    exact h _ (l.getElem_mem hj)
  · exact List.getD_eq_default _ _ hj

theorem getD_zeros_ones (z b : Nat) (l₂ : List Nat) (j : Nat) :
    (List.replicate z 0 ++ List.replicate b 1 ++ l₂).getD j 0 =
      if j < z then 0 else if j < z + b then 1 else l₂.getD (j - z - b) 0 := by
  rcases Nat.lt_or_ge j z with h1 | h1
  · rw [if_pos h1, List.getD_append _ _ _ _ (by simp; omega), List.getD_append _ _ _ _ (by simpa using h1),
      getD_replicate, if_pos h1]
  · rcases Nat.lt_or_ge j (z + b) with h2 | h2
    · rw [if_neg (by omega), if_pos h2, List.getD_append _ _ _ _ (by simp; omega),
        List.getD_append_right _ _ _ _ (by simpa using h1), getD_replicate]
      simp only [List.length_replicate]
      rw [if_pos (by omega)]
    · rw [if_neg (by omega), if_neg (by omega), List.getD_append_right _ _ _ _ (by simp; omega)]
      simp only [List.length_append, List.length_replicate]
      congr 1
      omega

/-- The mask built by `addBlock` equals the mask OR the shifted encoding of
a line made of `z` zeros, the block, and a zero tail. -/
theorem addBlock_eq_or_encode_last (start z b : Nat) (l₂ : List Nat) (mask : Nat)
    (hfit : start + z + b ≤ 32) (hl₂ : ∀ c ∈ l₂, c = 0) :
    addBlock mask (start + z) b =
      mask ||| ((encodeLine (List.replicate z 0 ++ List.replicate b 1 ++ l₂)) <<< start) := by
  apply Nat.eq_of_testBit_eq
  intro i
  rw [addBlock_testBit b mask (start + z) i (by omega), Nat.testBit_or, Nat.testBit_shiftLeft,
    encodeLine_testBit, getD_zeros_ones]
  cases hmt : mask.testBit i
  · simp only [Bool.false_or]
    by_cases hsi : start ≤ i
    · rw [decide_eq_true hsi, Bool.true_and]
      rcases Nat.lt_or_ge (i - start) z with h1 | h1
      · rw [if_pos h1, decide_eq_false (by omega : ¬ (start + z ≤ i ∧ i < start + z + b))]
        simp
      · rcases Nat.lt_or_ge (i - start) (z + b) with h2 | h2
        · rw [if_neg (by omega), if_pos h2]
          rw [decide_eq_true (by omega : start + z ≤ i ∧ i < start + z + b)]
          simp
        · rw [if_neg (by omega), if_neg (by omega), getD_all_zero l₂ hl₂]
          rw [decide_eq_false (by omega : ¬ (start + z ≤ i ∧ i < start + z + b))]
          simp
    · rw [decide_eq_false hsi, Bool.false_and,
        decide_eq_false (by omega : ¬ (start + z ≤ i ∧ i < start + z + b))]
  · simp

/-- Extending the mask by one block and a recursively placed suffix equals
the mask OR the shifted encoding of zeros, the block, a gap, and the suffix. -/
theorem addBlock_eq_or_encode_cons (start z b : Nat) (t : List Nat) (mask : Nat)
    (hfit : start + z + b ≤ 32) :
    (addBlock mask (start + z) b) ||| ((encodeLine t) <<< (start + z + b + 1)) =
      mask ||| ((encodeLine (List.replicate z 0 ++ List.replicate b 1 ++ (0 :: t))) <<< start) := by
  apply Nat.eq_of_testBit_eq
  intro i
  rw [Nat.testBit_or, addBlock_testBit b mask (start + z) i (by omega), Nat.testBit_or,
    Nat.testBit_shiftLeft, Nat.testBit_shiftLeft, encodeLine_testBit, encodeLine_testBit,
    getD_zeros_ones]
  cases hmt : mask.testBit i
  · simp only [Bool.false_or, Bool.or_assoc]
    by_cases hsi : start ≤ i
    · rw [decide_eq_true hsi, Bool.true_and]
      rcases Nat.lt_or_ge (i - start) z with h1 | h1
      · rw [if_pos h1, decide_eq_false (by omega : ¬ (start + z ≤ i ∧ i < start + z + b)),
          decide_eq_false (by omega : ¬ (start + z + b + 1 ≤ i))]
        simp
      · rcases Nat.lt_or_ge (i - start) (z + b) with h2 | h2
        · rw [if_neg (by omega), if_pos h2,
            decide_eq_true (by omega : start + z ≤ i ∧ i < start + z + b),
            decide_eq_false (by omega : ¬ (start + z + b + 1 ≤ i))]
          simp
        · rw [if_neg (by omega), if_neg (by omega),
            decide_eq_false (by omega : ¬ (start + z ≤ i ∧ i < start + z + b))]
          rcases Nat.eq_or_lt_of_le h2 with h3 | h3
          · rw [decide_eq_false (by omega : ¬ (start + z + b + 1 ≤ i))]
            rw [show i - start - z - b = 0 by omega]
            simp
          · rw [decide_eq_true (by omega : start + z + b + 1 ≤ i), Bool.true_and,
              show i - start - z - b = (i - (start + z + b + 1)) + 1 by omega]
            simp
    · rw [decide_eq_false hsi, Bool.false_and,
        decide_eq_false (by omega : ¬ (start + z ≤ i ∧ i < start + z + b)),
        decide_eq_false (by omega : ¬ (start + z + b + 1 ≤ i))]
      simp
  · simp

theorem isBoolLine_block (z b : Nat) (l₂ : List Nat) (h : IsBoolLine l₂) :
    IsBoolLine (List.replicate z 0 ++ List.replicate b 1 ++ l₂) := by
  intro c hc
  simp only [List.mem_append, List.mem_replicate] at hc
  rcases hc with (⟨-, rfl⟩ | ⟨-, rfl⟩) | hc
  · exact Or.inl rfl
  · exact Or.inr rfl
  · exact h c hc

/-- Membership characterization of `place`: under the invariant that the
accumulated mask sits strictly below `start - 1`, the produced masks are
exactly `mask` OR the shifted encodings of the 0/1 tails of length
`length - start` that derive the hints `b :: rest`. -/
theorem place_mem_iff (length : Nat) (hlen : length ≤ 32) :
    ∀ (rest : List Nat) (b start mask x : Nat), 0 < b → (∀ h ∈ rest, 0 < h) →
    (∀ i, mask.testBit i = true → i + 2 ≤ start) →
    (x ∈ place length b rest start mask ↔
      ∃ tail, tail.length + start = length ∧ IsBoolLine tail ∧
        deriveLineHints tail = b :: rest ∧ x = mask ||| (encodeLine tail <<< start)) := by
  intro rest
  induction rest with
  | nil =>
    intro b start mask x hb _ hmask
    simp only [place, List.mem_map, List.mem_range'_1]
    constructor
    · rintro ⟨p, ⟨hsp, hpb⟩, rfl⟩
      have hple : p + b ≤ length := by omega
      refine ⟨List.replicate (p - start) 0 ++ List.replicate b 1 ++ List.replicate (length - (p + b)) 0,
        by simp; omega, isBoolLine_block _ _ _ (by intro c hc; exact Or.inl (List.eq_of_mem_replicate hc)),
        deriveLineHints_single_block _ _ _ hb, ?_⟩
      have heq := addBlock_eq_or_encode_last start (p - start) b
        (List.replicate (length - (p + b)) 0) mask (by omega)
        (fun c hc => List.eq_of_mem_replicate hc)
      rwa [show start + (p - start) = p by omega] at heq
    · rintro ⟨tail, hlen2, hbool, hder, rfl⟩
      obtain ⟨-, z, l₂, rfl, hrel⟩ := deriveLineHints_decomp _ _ _ hbool hder
      have hz : ∀ c ∈ l₂, c = 0 := by
        rcases hrel with ⟨rfl, -⟩ | ⟨t, rfl, ht⟩
        · simp
        · intro c hc
          rcases List.mem_cons.1 hc with rfl | hc2
          · rfl
          · exact (deriveLineHints_eq_nil t).1 ht c hc2
      have hlen3 : z + (b + l₂.length) + start = length := by simpa using hlen2
      refine ⟨start + z, ⟨by omega, by omega⟩, ?_⟩
      exact (addBlock_eq_or_encode_last start z b l₂ mask (by omega) hz).symm ▸ rfl
  | cons b2 rest2 ih =>
    intro b start mask x hb hrest hmask
    have hb2 : 0 < b2 := hrest b2 (by simp)
    have hrest2 : ∀ h ∈ rest2, 0 < h := fun h hh => hrest h (by simp [hh])
    have hrem2 : 2 ≤ (b2 :: rest2).sum + (b2 :: rest2).length := by
      simp only [List.sum_cons, List.length_cons]
      omega
    simp only [place, List.mem_flatMap, List.mem_range'_1]
    constructor
    · rintro ⟨p, ⟨hsp, hpb⟩, hx⟩
      have hple : p + b + ((b2 :: rest2).sum + (b2 :: rest2).length) ≤ length := by omega
      have hinv : ∀ i, (addBlock mask p b).testBit i = true → i + 2 ≤ p + b + 1 := by
        intro i hi
        rw [addBlock_testBit b mask p i (by omega)] at hi
        rcases Bool.or_eq_true_iff.1 hi with h1 | h1
        · have := hmask i h1
          omega
        · have := of_decide_eq_true h1
          omega
      obtain ⟨t, hlt, hboolt, hdert, hxt⟩ :=
        (ih b2 (p + b + 1) (addBlock mask p b) x hb2 hrest2 hinv).1 hx
      refine ⟨List.replicate (p - start) 0 ++ List.replicate b 1 ++ (0 :: t),
        by simp; omega,
        isBoolLine_block _ _ _ (fun c hc => by
          rcases List.mem_cons.1 hc with rfl | hc2
          · exact Or.inl rfl
          · exact hboolt c hc2),
        by rw [deriveLineHints_block_cons _ _ hb, hdert], ?_⟩
      have heq := addBlock_eq_or_encode_cons start (p - start) b t mask (by omega)
      rw [show start + (p - start) = p by omega] at heq
      rw [hxt, heq]
    · rintro ⟨tail, hlen2, hbool, hder, rfl⟩
      obtain ⟨-, z, l₂, rfl, hrel⟩ := deriveLineHints_decomp _ _ _ hbool hder
      rcases hrel with ⟨-, habs⟩ | ⟨t, rfl, ht⟩
      · exact absurd habs (by simp)
      have hlen3 : z + (b + (t.length + 1)) + start = length := by simpa using hlen2
      have hbound := deriveLineHints_sum_length t
      rw [ht] at hbound
      have hfit : start + z + b ≤ 32 := by omega
      have hinv : ∀ i, (addBlock mask (start + z) b).testBit i = true →
          i + 2 ≤ start + z + b + 1 := by
        intro i hi
        rw [addBlock_testBit b mask (start + z) i (by omega)] at hi
        rcases Bool.or_eq_true_iff.1 hi with h1 | h1
        · have := hmask i h1
          omega
        · have := of_decide_eq_true h1
          omega
      refine ⟨start + z, ⟨by omega, by omega⟩, ?_⟩
      apply (ih b2 (start + z + b + 1) (addBlock mask (start + z) b) _ hb2 hrest2 hinv).2
      refine ⟨t, by omega, fun c hc => hbool c (by simp [hc]), ht, ?_⟩
      exact (addBlock_eq_or_encode_cons start z b t mask hfit).symm

theorem encodeLine_all_zero (l : List Nat) (h : ∀ c ∈ l, c = 0) : encodeLine l = 0 := by
  apply Nat.eq_of_testBit_eq
  intro i
  rw [encodeLine_testBit, getD_all_zero l h, Nat.zero_testBit]
  simp

/-- Masks produced from different first-block positions differ. -/
theorem addBlock_bit_self (mask p b : Nat) (hb : 0 < b) (hfit : p + b ≤ 32) :
    (addBlock mask p b).testBit p = true := by
  rw [addBlock_testBit b mask p p (by omega)]
  rw [decide_eq_true (by omega : p ≤ p ∧ p < p + b)]
  simp

theorem addBlock_bit_low (mask start p b i : Nat)
    (hmask : ∀ j, mask.testBit j = true → j + 2 ≤ start)
    (hsi : start ≤ i) (hip : i < p) (hfit : p + b ≤ 32) :
    (addBlock mask p b).testBit i = false := by
  rw [addBlock_testBit b mask p i (by omega)]
  have hm : mask.testBit i = false := by
    cases hmt : mask.testBit i
    · rfl
    · have := hmask i hmt
      omega
  rw [hm, decide_eq_false (by omega : ¬ (p ≤ i ∧ i < p + b))]
  simp

theorem place_nodup (length : Nat) (hlen : length ≤ 32) :
    ∀ (rest : List Nat) (b start mask : Nat), 0 < b → (∀ h ∈ rest, 0 < h) →
    (∀ i, mask.testBit i = true → i + 2 ≤ start) →
    (place length b rest start mask).Nodup := by
  intro rest
  induction rest with
  | nil =>
    intro b start mask hb _ hmask
    simp only [place]
    apply List.Nodup.map_on _ (List.nodup_range' ..)
    intro p hp q hq heq
    simp only [List.mem_range'_1] at hp hq
    by_contra hne
    have key : ∀ u v : Nat, start ≤ u → u + b ≤ length → start ≤ v → v + b ≤ length → u < v →
        addBlock mask u b ≠ addBlock mask v b := by
      intro u v hsu hub hsv hvb huv habs
      have h1 : (addBlock mask u b).testBit u = true := addBlock_bit_self mask u b hb (by omega)
      have h2 : (addBlock mask v b).testBit u = false :=
        addBlock_bit_low mask start v b u hmask hsu huv (by omega)
      rw [habs, h2] at h1
      exact Bool.false_ne_true h1
    rcases Nat.lt_or_ge p q with hlt | hge
    · exact key p q (by omega) (by omega) (by omega) (by omega) hlt heq
    · exact key q p (by omega) (by omega) (by omega) (by omega) (by omega) heq.symm
  | cons b2 rest2 ih =>
    intro b start mask hb hrest hmask
    have hb2 : 0 < b2 := hrest b2 (by simp)
    have hrest2 : ∀ h ∈ rest2, 0 < h := fun h hh => hrest h (by simp [hh])
    have hrem2 : 2 ≤ (b2 :: rest2).sum + (b2 :: rest2).length := by
      simp only [List.sum_cons, List.length_cons]
      omega
    simp only [place]
    rw [List.nodup_flatMap]
    constructor
    · intro p hp
      simp only [List.mem_range'_1] at hp
      refine ih b2 (p + b + 1) (addBlock mask p b) hb2 hrest2 ?_
      intro i hi
      rw [addBlock_testBit b mask p i (by omega)] at hi
      rcases Bool.or_eq_true_iff.1 hi with h1 | h1
      · have := hmask i h1
        omega
      · have := of_decide_eq_true h1
        omega
    · have hpw := List.pairwise_lt_range' start
        (length + 1 - (b + ((b2 :: rest2).sum + (b2 :: rest2).length) + start)) 1 (by omega)
      refine List.Pairwise.imp_of_mem ?_ hpw
      intro p q hpmem hqmem hpq x hxp hxq
      simp only [List.mem_range'_1] at hpmem hqmem
      have hfitp : p + b ≤ 32 := by omega
      have hfitq : q + b ≤ 32 := by omega
      have hinvp : ∀ i, (addBlock mask p b).testBit i = true → i + 2 ≤ p + b + 1 := by
        intro i hi
        rw [addBlock_testBit b mask p i hfitp] at hi
        rcases Bool.or_eq_true_iff.1 hi with h1 | h1
        · have := hmask i h1
          omega
        · have := of_decide_eq_true h1
          omega
      have hinvq : ∀ i, (addBlock mask q b).testBit i = true → i + 2 ≤ q + b + 1 := by
        intro i hi
        rw [addBlock_testBit b mask q i hfitq] at hi
        rcases Bool.or_eq_true_iff.1 hi with h1 | h1
        · have := hmask i h1
          omega
        · have := of_decide_eq_true h1
          omega
      obtain ⟨t, hlt, hboolt, hdert, hxt⟩ :=
        (place_mem_iff length hlen rest2 b2 (p + b + 1) (addBlock mask p b) x hb2 hrest2 hinvp).1 hxp
      obtain ⟨u, hlu, hboolu, hderu, hxu⟩ :=
        (place_mem_iff length hlen rest2 b2 (q + b + 1) (addBlock mask q b) x hb2 hrest2 hinvq).1 hxq
      have h1 : x.testBit p = true := by
        rw [hxt, Nat.testBit_or, addBlock_bit_self mask p b hb hfitp]
        simp
      have h2 : x.testBit p = false := by
        rw [hxu, Nat.testBit_or, addBlock_bit_low mask start q b p hmask (by omega) hpq hfitq,
          Nat.testBit_shiftLeft]
        rw [decide_eq_false (by omega : ¬ (q + b + 1 ≤ p))]
        simp
      rw [h1] at h2
      simp at h2

/-- Full membership characterization of `buildLineMasks` for lines of
length at most 32 and positive hints: the produced masks are exactly the
encodings of the 0/1 lines of the requested length deriving the hints. -/
theorem buildLineMasks_mem_iff (length : Nat) (hlen : length ≤ 32) (hints : List Nat)
    (hpos : ∀ h ∈ hints, 0 < h) (x : Nat) :
    x ∈ buildLineMasks length hints ↔
      ∃ line, line.length = length ∧ IsBoolLine line ∧
        deriveLineHints line = hints ∧ encodeLine line = x := by
  cases hints with
  | nil =>
    simp only [buildLineMasks, List.mem_singleton]
    constructor
    · rintro rfl
      exact ⟨List.replicate length 0, by simp,
        fun c hc => Or.inl (List.eq_of_mem_replicate hc),
        (deriveLineHints_eq_nil _).2 (fun c hc => List.eq_of_mem_replicate hc),
        encodeLine_all_zero _ (fun c hc => List.eq_of_mem_replicate hc)⟩
    · rintro ⟨line, hl, hbool, hder, rfl⟩
      exact (encodeLine_all_zero line ((deriveLineHints_eq_nil line).1 hder)).symm ▸ rfl
  | cons b rest =>
    have hiff := place_mem_iff length hlen rest b 0 0 x (hpos b (by simp))
      (fun h hh => hpos h (by simp [hh])) (by simp)
    rw [show buildLineMasks length (b :: rest) = place length b rest 0 0 from rfl, hiff]
    constructor
    · rintro ⟨tail, hlen2, hbool, hder, rfl⟩
      exact ⟨tail, by omega, hbool, hder, by simp⟩
    · rintro ⟨line, hl, hbool, hder, rfl⟩
      exact ⟨line, by omega, hbool, hder, by simp⟩

theorem buildLineMasks_nodup (length : Nat) (hlen : length ≤ 32) (hints : List Nat)
    (hpos : ∀ h ∈ hints, 0 < h) : (buildLineMasks length hints).Nodup := by
  cases hints with
  | nil => simp [buildLineMasks]
  | cons b rest =>
    exact place_nodup length hlen rest b 0 0 (hpos b (by simp))
      (fun h hh => hpos h (by simp [hh])) (by simp)

theorem buildLineMasks_lt_two_pow (length : Nat) (hlen : length ≤ 32) (hints : List Nat)
    (hpos : ∀ h ∈ hints, 0 < h) (x : Nat) (hx : x ∈ buildLineMasks length hints) :
    x < 2 ^ length := by
  obtain ⟨line, hl, -, -, rfl⟩ := (buildLineMasks_mem_iff length hlen hints hpos x).1 hx
  exact hl ▸ encodeLine_lt_two_pow line

/-! ## Decoding masks back into lines -/

theorem shiftRight_and_one (m i : Nat) :
    (m >>> i) &&& 1 = if m.testBit i then 1 else 0 := by
  rw [Nat.and_one_is_mod, Nat.shiftRight_eq_div_pow, Nat.testBit_to_div_mod]
  rcases Nat.mod_two_eq_zero_or_one (m / 2 ^ i) with h | h <;> simp [h]

theorem decodeLine_length (m n : Nat) : (decodeLine m n).length = n := by
  simp [decodeLine]

theorem decodeLine_isBool (m n : Nat) : IsBoolLine (decodeLine m n) := by
  intro c hc
  simp only [decodeLine, List.mem_map] at hc
  obtain ⟨i, -, rfl⟩ := hc
  rw [shiftRight_and_one]
  split
  · exact Or.inr rfl
  · exact Or.inl rfl

theorem decodeLine_getD (m n i : Nat) (h : i < n) :
    (decodeLine m n).getD i 0 = (m >>> i) &&& 1 := by
  rw [decodeLine, List.getD_eq_getElem _ _ (by simpa using h)]
  simp

theorem encode_decodeLine (m n : Nat) (h : m < 2 ^ n) :
    encodeLine (decodeLine m n) = m := by
  apply Nat.eq_of_testBit_eq
  intro i
  rw [encodeLine_testBit]
  rcases Nat.lt_or_ge i n with hi | hi
  · rw [decodeLine_getD m n i hi, shiftRight_and_one]
    cases hmt : m.testBit i <;> simp [hmt]
  · rw [List.getD_eq_default _ _ (by simpa [decodeLine_length] using hi)]
    rw [Nat.testBit_lt_two_pow (lt_of_lt_of_le h (Nat.pow_le_pow_right (by omega) hi))]
    simp

theorem decode_encodeLine (l : List Nat) (hbool : IsBoolLine l) :
    decodeLine (encodeLine l) l.length = l := by
  apply List.ext_getElem (by simp [decodeLine_length])
  intro i h1 h2
  have hlt : i < l.length := h2
  have : (decodeLine (encodeLine l) l.length)[i] = (encodeLine l >>> i) &&& 1 := by
    simp [decodeLine]
  rw [this, shiftRight_and_one, encodeLine_testBit,
    List.getD_eq_getElem _ _ hlt]
  rcases hbool l[i] (l.getElem_mem hlt) with h | h <;> simp [h]

/-- `deriveLineHints` of the canonical decoded line of a mask. -/
def maskHints (m length : Nat) : List Nat := deriveLineHints (decodeLine m length)

/-! ## The solver's 32-bit-wrapped line encoding (for C9) -/

/-- Accumulated bit-vector encoding of a line exactly as the solver
computes masks: `m |= 1 << i` per filled cell `i`, with the JS 32-bit wrap
of the shift count. -/
def encodeLineJSAux : List Nat → Nat → Nat
  | [], _ => 0
  | cell :: rest, i => (if cell ≠ 0 then 1 <<< (i % 32) else 0) ||| encodeLineJSAux rest (i + 1)

def encodeLineJS (line : List Nat) : Nat := encodeLineJSAux line 0

theorem encodeLineJSAux_testBit (l : List Nat) : ∀ (i j : Nat), i + l.length ≤ 32 →
    (encodeLineJSAux l i).testBit j = decide (i ≤ j ∧ l.getD (j - i) 0 ≠ 0) := by
  induction l with
  | nil =>
    intro i j h
    simp [encodeLineJSAux]
  | cons cell rest ih =>
    intro i j h
    simp only [encodeLineJSAux, Nat.testBit_or]
    rw [ih (i + 1) j (by simp only [List.length_cons] at h; omega),
      Nat.mod_eq_of_lt (by simp only [List.length_cons] at h; omega)]
    rcases Nat.lt_trichotomy j i with hj | hj | hj
    · rw [decide_eq_false (by omega : ¬ (i + 1 ≤ j ∧ rest.getD (j - (i + 1)) 0 ≠ 0)),
        decide_eq_false (by omega : ¬ (i ≤ j ∧ (cell :: rest).getD (j - i) 0 ≠ 0))]
      split
      · rw [Nat.one_shiftLeft, Nat.testBit_two_pow, decide_eq_false (by omega : ¬ i = j)]
        simp
      · simp
    · subst hj
      rw [decide_eq_false (by omega : ¬ (j + 1 ≤ j ∧ rest.getD (j - (j + 1)) 0 ≠ 0)), Bool.or_false]
      simp only [Nat.sub_self, List.getD_cons_zero]
      by_cases hc : cell = 0
      · simp [hc]
      · simp [hc, Nat.one_shiftLeft, Nat.testBit_two_pow_self]
    · rw [show j - i = (j - (i + 1)) + 1 by omega]
      simp only [List.getD_cons_succ]
      have : (if cell ≠ 0 then 1 <<< i else 0).testBit j = false := by
        split
        · rw [Nat.one_shiftLeft, Nat.testBit_two_pow, decide_eq_false (by omega : ¬ i = j)]
        · simp
      rw [this, Bool.false_or, decide_eq_decide]
      omega

/-- Below 32 cells the wrapped and the true encodings agree. -/
theorem encodeLineJS_eq_encodeLine (l : List Nat) (h : l.length ≤ 32) :
    encodeLineJS l = encodeLine l := by
  apply Nat.eq_of_testBit_eq
  intro j
  rw [encodeLineJS, encodeLineJSAux_testBit l 0 j (by omega), encodeLine_testBit]
  simp

/-! ## Grid verifier (`countSolutions`) -/

/-- Column-filtering loop: for each column (from index `col` on), keep the
candidates whose bit at `rowIndex` matches the chosen row mask's bit at
that column; `none` as soon as a column's filtered set is empty (the source
then restores the snapshots, so the caller keeps its own state). -/
def filterColumnsAux (rowIndex mask : Nat) : Nat → List (List Nat) → Option (List (List Nat))
  | _, [] => some []
  | col, state :: restState =>
    let bit := jsBit mask col
    let filtered := state.filter (fun candidate => jsBit candidate rowIndex == bit)
    if filtered.length = 0 then none
    else
      match filterColumnsAux rowIndex mask (col + 1) restState with
      | none => none
      | some rest => some (filtered :: rest)

def filterColumns (rowIndex mask : Nat) (columnState : List (List Nat)) :
    Option (List (List Nat)) :=
  filterColumnsAux rowIndex mask 0 columnState

/-- The recursive `backtrack` of `countSolutions`.  The extra `gas`
argument makes the recursion structural; the source recursion reaches
depth at most `size`, so the `size + 1` supplied by `countSolutions` is
never exhausted (established by the correctness lemmas). -/
def backtrack (size limit : Nat) (rowOptions : List (List Nat)) (rowOrder : List Nat) :
    Nat → List Bool → List (List Nat) → Nat → Nat → Nat
  | 0, _, _, _, found => found
  | gas + 1, assigned, columnState, depth, found =>
    if limit ≤ found then found
    else if depth = size then found + 1
    else
      match rowOrder.find? (fun row => !(assigned.getD row false)) with
      | none => found
      | some rowIndex =>
        (rowOptions.getD rowIndex []).foldl
          (fun acc mask =>
            if limit ≤ acc then acc
            else
              match filterColumns rowIndex mask columnState with
              | none => acc
              | some newState =>
                backtrack size limit rowOptions rowOrder gas
                  (assigned.set rowIndex true) newState (depth + 1) acc)
          found

/-- `countSolutions(rows, cols, size, limit)` from the source: row options
and column options via `buildLineMasks`, early 0 on an empty option set,
rows processed in ascending order of option-set size (stable, as the JS
`sort`), then depth-first assignment with column filtering. -/
def countSolutions (rows cols : List (List Nat)) (size limit : Nat) : Nat :=
  let rowOptions := rows.map (fun hintLine => buildLineMasks size hintLine)
  let columnOptions := cols.map (fun hintLine => buildLineMasks size hintLine)
  if rowOptions.any (fun options => options.length == 0) ||
      columnOptions.any (fun options => options.length == 0) then 0
  else
    let columnState := columnOptions.map (fun options => options)
    let rowOrder := List.insertionSort
      (fun a b => (rowOptions.getD a []).length ≤ (rowOptions.getD b []).length)
      (List.range size)
    backtrack size limit rowOptions rowOrder (size + 1) (List.replicate size false) columnState 0 0

/-- `hasUniqueSolution(rows, cols, size)` (the source's default `limit = 2`
made explicit). -/
def hasUniqueSolution (rows cols : List (List Nat)) (size : Nat) : Bool :=
  countSolutions rows cols size 2 == 1

/-! ## Specification-side solution counting -/

/-- All 0/1 lines of length `n`. -/
def allLines : Nat → List (List Nat)
  | 0 => [[]]
  | n + 1 => (allLines n).flatMap (fun l => [0 :: l, 1 :: l])

/-- Cartesian product of a list of choice lists. -/
def listProd {α : Type} : List (List α) → List (List α)
  | [] => [[]]
  | choices :: rest => choices.flatMap (fun x => (listProd rest).map (fun xs => x :: xs))

/-- All `n × n` 0/1 grids. -/
def allGrids (n : Nat) : List (List (List Nat)) := listProd (List.replicate n (allLines n))

/-- Row hints of a grid, as `buildPuzzleFromGrid` computes them. -/
def gridRowHints (grid : List (List Nat)) : List (List Nat) := grid.map deriveLineHints

/-- Column hints of a grid, as `buildPuzzleFromGrid` computes them. -/
def gridColHints (grid : List (List Nat)) : List (List Nat) :=
  (transpose grid).map deriveLineHints

/-- The number of `size × size` 0/1 grids whose derived row hints are
`rows` and derived column hints are `cols` (the spec's solution count). -/
def solutionCount (rows cols : List (List Nat)) (size : Nat) : Nat :=
  (allGrids size).countP (fun g => gridRowHints g == rows && gridColHints g == cols)

theorem mem_allLines (n : Nat) : ∀ l, l ∈ allLines n ↔ l.length = n ∧ IsBoolLine l := by
  induction n with
  | zero =>
    intro l
    constructor
    · rintro h
      simp only [allLines, List.mem_singleton] at h
      subst h
      exact ⟨rfl, by intro c hc; simp at hc⟩
    · rintro ⟨h, -⟩
      simp only [allLines, List.mem_singleton]
      exact List.eq_nil_of_length_eq_zero h
  | succ n ih =>
    intro l
    simp only [allLines, List.mem_flatMap]
    constructor
    · rintro ⟨t, ht, hl⟩
      obtain ⟨hlen, hbool⟩ := (ih t).1 ht
      simp only [List.mem_cons, List.mem_singleton, List.not_mem_nil, or_false] at hl
      rcases hl with rfl | rfl
      · exact ⟨by simp [hlen], fun c hc => by
          rcases List.mem_cons.1 hc with rfl | hc2
          · exact Or.inl rfl
          · exact hbool c hc2⟩
      · exact ⟨by simp [hlen], fun c hc => by
          rcases List.mem_cons.1 hc with rfl | hc2
          · exact Or.inr rfl
          · exact hbool c hc2⟩
    · rintro ⟨hlen, hbool⟩
      cases l with
      | nil => simp at hlen
      | cons c t =>
        refine ⟨t, (ih t).2 ⟨by simpa using hlen, fun x hx => hbool x (by simp [hx])⟩, ?_⟩
        rcases hbool c (by simp) with rfl | rfl
        · simp
        · simp

theorem nodup_allLines (n : Nat) : (allLines n).Nodup := by
  induction n with
  | zero => simp [allLines]
  | succ n ih =>
    rw [allLines, List.nodup_flatMap]
    refine ⟨fun t ht => by simp, ?_⟩
    refine List.Pairwise.imp_of_mem ?_ (List.Pairwise.and_mem.1 (ih.imp (fun h => h)) |>.imp (fun h => h.2.2))
    intro a b ha hb hne
    intro x hx1 hx2
    simp only [List.mem_cons, List.mem_singleton, List.not_mem_nil, or_false] at hx1 hx2
    rcases hx1 with rfl | rfl <;> rcases hx2 with h | h <;> simp_all

theorem mem_listProd {α : Type} : ∀ (choices : List (List α)) (xs : List α),
    xs ∈ listProd choices ↔ List.Forall₂ (fun x c => x ∈ c) xs choices := by
  intro choices
  induction choices with
  | nil =>
    intro xs
    simp only [listProd, List.mem_singleton]
    constructor
    · rintro rfl; exact List.Forall₂.nil
    · intro h; cases h; rfl
  | cons c rest ih =>
    intro xs
    simp only [listProd, List.mem_flatMap, List.mem_map]
    constructor
    · rintro ⟨x, hx, t, ht, rfl⟩
      exact List.Forall₂.cons hx ((ih t).1 ht)
    · intro h
      cases h with
      | cons hx ht => exact ⟨_, hx, _, (ih _).2 ht, rfl⟩

theorem nodup_listProd {α : Type} : ∀ (choices : List (List α)),
    (∀ c ∈ choices, c.Nodup) → (listProd choices).Nodup := by
  intro choices
  induction choices with
  | nil => intro _; simp [listProd]
  | cons c rest ih =>
    intro h
    rw [listProd, List.nodup_flatMap]
    constructor
    · intro x hx
      exact (ih (fun d hd => h d (by simp [hd]))).map (fun a b hab => by injection hab)
    · refine List.Pairwise.imp_of_mem ?_ ((h c (by simp)).imp (fun hne => hne))
      intro a b ha hb hne x hx1 hx2
      simp only [List.mem_map] at hx1 hx2
      obtain ⟨t1, -, rfl⟩ := hx1
      obtain ⟨t2, -, heq⟩ := hx2
      injection heq with h1 h2
      exact hne (h1 ▸ rfl)

/-! ## Specification of the column filtering -/

/-- The surviving options of column `j` after the partial assignment `σ`
(pairs of row index and chosen row mask). -/
def colFiltered (co : List (List Nat)) (σ : List (Nat × Nat)) (j : Nat) : List Nat :=
  (co.getD j []).filter (fun c => σ.all (fun rm => jsBit c rm.1 == jsBit rm.2 j))

/-- Bit-vector of column `j` induced by the row masks `ms`. -/
def colMaskOf (ms : List Nat) (j : Nat) : Nat :=
  encodeLine (ms.map (fun m => jsBit m j))

/-- `ms` agrees with every chosen pair of the partial assignment. -/
def extendsB (σ : List (Nat × Nat)) (ms : List Nat) : Bool :=
  σ.all (fun rm => ms.getD rm.1 0 == rm.2)

/-- All column masks of `ms` are members of their column's option set. -/
def colsOKb (co : List (List Nat)) (size : Nat) (ms : List Nat) : Bool :=
  (List.range size).all (fun j => (co.getD j []).contains (colMaskOf ms j))

/-- Number of full solutions extending the partial assignment `σ`. -/
def extCount (ro co : List (List Nat)) (size : Nat) (σ : List (Nat × Nat)) : Nat :=
  (listProd ro).countP (fun ms => extendsB σ ms && colsOKb co size ms)

theorem filterColumnsAux_some (r m : Nat) : ∀ (st : List (List Nat)) (col : Nat)
    (st' : List (List Nat)), filterColumnsAux r m col st = some st' →
    st'.length = st.length ∧ (∀ k, k < st.length →
      st'.getD k [] = (st.getD k []).filter (fun c => jsBit c r == jsBit m (col + k))) ∧
    (∀ k, k < st.length → st'.getD k [] ≠ []) := by
  intro st
  induction st with
  | nil =>
    intro col st' h
    simp only [filterColumnsAux, Option.some.injEq] at h
    subst h
    exact ⟨rfl, fun k hk => by simp at hk, fun k hk => by simp at hk⟩
  | cons state restState ih =>
    intro col st' h
    simp only [filterColumnsAux] at h
    by_cases hlen0 : (state.filter (fun candidate => jsBit candidate r == jsBit m col)).length = 0
    · rw [if_pos hlen0] at h
      simp at h
    · rw [if_neg hlen0] at h
      cases hconv : filterColumnsAux r m (col + 1) restState with
      | none => rw [hconv] at h; simp at h
      | some rest =>
        rw [hconv] at h
        simp only [Option.some.injEq] at h
        subst h
        obtain ⟨hlen, hpt, hne⟩ := ih (col + 1) rest hconv
        refine ⟨by simpa using hlen, ?_, ?_⟩
        · intro k hk
          cases k with
          | zero => simp
          | succ k =>
            simp only [List.getD_cons_succ]
            rw [hpt k (by simpa using hk), show col + 1 + k = col + (k + 1) by omega]
        · intro k hk
          cases k with
          | zero =>
            simp only [List.getD_cons_zero]
            intro habs
            rw [habs] at hlen0
            simp at hlen0
          | succ k =>
            simp only [List.getD_cons_succ]
            exact hne k (by simpa using hk)

theorem filterColumnsAux_none (r m : Nat) : ∀ (st : List (List Nat)) (col : Nat),
    filterColumnsAux r m col st = none →
    ∃ k, k < st.length ∧
      (st.getD k []).filter (fun c => jsBit c r == jsBit m (col + k)) = [] := by
  intro st
  induction st with
  | nil => intro col h; simp [filterColumnsAux] at h
  | cons state restState ih =>
    intro col h
    simp only [filterColumnsAux] at h
    by_cases hlen0 : (state.filter (fun candidate => jsBit candidate r == jsBit m col)).length = 0
    · refine ⟨0, by simp, ?_⟩
      simpa using List.length_eq_zero.1 hlen0
    · rw [if_neg hlen0] at h
      cases hconv : filterColumnsAux r m (col + 1) restState with
      | none =>
        obtain ⟨k, hk, hfe⟩ := ih (col + 1) hconv
        refine ⟨k + 1, by simpa using hk, ?_⟩
        simp only [List.getD_cons_succ]
        rw [show col + (k + 1) = col + 1 + k by omega]
        exact hfe
      | some rest => rw [hconv] at h; simp at h

theorem sum_map_add {α : Type} (l : List α) (f g : α → Nat) :
    (l.map (fun x => f x + g x)).sum = (l.map f).sum + (l.map g).sum := by
  induction l with
  | nil => simp
  | cons x l ih =>
    simp only [List.map_cons, List.sum_cons, ih]
    omega

theorem sum_map_ite_eq (vs : List Nat) (hnd : vs.Nodup) (a : Nat) (ha : a ∈ vs) :
    (vs.map (fun v => if (a == v : Bool) then 1 else 0)).sum = 1 := by
  induction vs with
  | nil => simp at ha
  | cons w ws ih =>
    simp only [List.map_cons, List.sum_cons]
    rcases List.mem_cons.1 ha with rfl | hmem
    · rw [if_pos (by simp)]
      have hz : (ws.map (fun v => if (a == v : Bool) then 1 else 0)).sum = 0 := by
        apply List.sum_eq_zero
        intro x hx
        simp only [List.mem_map] at hx
        obtain ⟨v, hv, rfl⟩ := hx
        have : ¬ (a = v) := fun h => (List.nodup_cons.1 hnd).1 (h ▸ hv)
        simp [this]
      omega
    · have : ¬ (a = w) := fun h => (List.nodup_cons.1 hnd).1 (h ▸ hmem)
      rw [if_neg (by simpa using this), ih (List.nodup_cons.1 hnd).2 hmem]

/-- `countP` splits along the (distinct) values of a key function. -/
theorem countP_partition {α : Type} (l : List α) (p : α → Bool) (f : α → Nat)
    (vs : List Nat) (hnd : vs.Nodup) (hmem : ∀ x ∈ l, p x = true → f x ∈ vs) :
    l.countP p = (vs.map (fun v => l.countP (fun x => p x && (f x == v)))).sum := by
  induction l with
  | nil => simp
  | cons x l ih =>
    have ihl := ih (fun y hy hp => hmem y (by simp [hy]) hp)
    have expand : (vs.map (fun v => List.countP (fun y => p y && (f y == v)) (x :: l))).sum
        = (vs.map (fun v => l.countP (fun y => p y && (f y == v))
            + (if p x && (f x == v) then 1 else 0))).sum := by
      congr 1
      apply List.map_congr_left
      intro v hv
      simp [List.countP_cons]
    rw [List.countP_cons, expand, sum_map_add, ← ihl]
    cases hpx : p x
    · simp [hpx]
    · have h1 : (vs.map (fun v => if p x && (f x == v) then 1 else 0)).sum = 1 := by
        have : (vs.map (fun v => if p x && (f x == v) then 1 else 0))
            = (vs.map (fun v => if (f x == v : Bool) then 1 else 0)) := by
          apply List.map_congr_left
          intro v hv
          simp [hpx]
        rw [this]
        exact sum_map_ite_eq vs hnd (f x) (hmem x (by simp) hpx)
      rw [hpx] at h1
      rw [h1]
      simp

/-- `countP` is `1` when exactly one member satisfies the predicate. -/
theorem countP_eq_one_of_unique {α : Type} (l : List α) (p : α → Bool) (a : α)
    (hnd : l.Nodup) (hmem : a ∈ l) (hpa : p a = true)
    (huniq : ∀ x ∈ l, p x = true → x = a) : l.countP p = 1 := by
  induction l with
  | nil => simp at hmem
  | cons x l ih =>
    rcases List.mem_cons.1 hmem with rfl | hmem2
    · rw [List.countP_cons, if_pos hpa]
      have : l.countP p = 0 := by
        rw [List.countP_eq_zero]
        intro y hy hpy
        have := huniq y (by simp [hy]) hpy
        subst this
        exact (List.nodup_cons.1 hnd).1 hy
      omega
    · have hxa : x ≠ a := by
        intro h
        exact (List.nodup_cons.1 hnd).1 (h ▸ hmem2)
      rw [List.countP_cons, if_neg (by
        cases hpx : p x
        · simp
        · exact absurd (huniq x (by simp) hpx) hxa)]
      rw [ih (List.nodup_cons.1 hnd).2 hmem2 (fun y hy hpy => huniq y (by simp [hy]) hpy)]

theorem jsBit_eq_testBit (x k : Nat) (hk : k < 32) :
    jsBit x k = if x.testBit k then 1 else 0 := by
  rw [jsBit, Nat.mod_eq_of_lt hk, shiftRight_and_one]

theorem colMaskOf_testBit (ms : List Nat) (j i : Nat) (hj : j < 32) (hi : i < ms.length) :
    (colMaskOf ms j).testBit i = (ms.getD i 0).testBit j := by
  rw [colMaskOf, encodeLine_testBit]
  rw [List.getD_eq_getElem _ _ (by simpa using hi)]
  simp only [List.getElem_map]
  rw [show ms[i] = ms.getD i 0 from (List.getD_eq_getElem ms 0 hi).symm]
  rw [jsBit_eq_testBit _ j hj]
  cases h : (ms.getD i 0).testBit j <;> simp [h]

theorem colMaskOf_lt (ms : List Nat) (j : Nat) : colMaskOf ms j < 2 ^ ms.length := by
  have := encodeLine_lt_two_pow (ms.map (fun m => jsBit m j))
  simpa [colMaskOf] using this

theorem extendsB_append (σ : List (Nat × Nat)) (r m : Nat) (ms : List Nat) :
    extendsB (σ ++ [(r, m)]) ms = (extendsB σ ms && (ms.getD r 0 == m)) := by
  simp [extendsB, List.all_append]

theorem colFiltered_append (co : List (List Nat)) (σ : List (Nat × Nat)) (r m j : Nat) :
    colFiltered co (σ ++ [(r, m)]) j
      = (colFiltered co σ j).filter (fun c => jsBit c r == jsBit m j) := by
  unfold colFiltered
  rw [List.filter_filter]
  apply List.filter_congr
  intro c hc
  simp only [List.all_append, List.all_cons, List.all_nil, Bool.and_true]
  rw [Bool.and_comm]

theorem listProd_length {α : Type} (choices : List (List α)) (xs : List α)
    (h : xs ∈ listProd choices) : xs.length = choices.length :=
  ((mem_listProd choices xs).1 h).length_eq

theorem listProd_getD_mem {α : Type} (choices : List (List α)) (xs : List α) (d : α)
    (h : xs ∈ listProd choices) (i : Nat) (hi : i < choices.length) :
    xs.getD i d ∈ choices.getD i [] := by
  have hf := (mem_listProd choices xs).1 h
  have hlen := hf.length_eq
  obtain ⟨-, hget⟩ := List.forall₂_iff_get.1 hf
  have := hget i (by omega) hi
  rw [List.getD_eq_getElem xs d (by omega), List.getD_eq_getElem choices [] hi]
  simpa using this

theorem mem_listProd_of_getD {α : Type} (choices : List (List α)) (xs : List α) (d : α)
    (hlen : xs.length = choices.length)
    (h : ∀ i, i < choices.length → xs.getD i d ∈ choices.getD i []) :
    xs ∈ listProd choices := by
  rw [mem_listProd]
  rw [List.forall₂_iff_get]
  refine ⟨hlen, ?_⟩
  intro i h1 h2
  have := h i h2
  rwa [List.getD_eq_getElem _ _ h1, List.getD_eq_getElem _ _ h2] at this

/-- If the keys of an association list are distinct, `lookup` recovers any
member pair. -/
theorem lookup_eq_of_mem (τ : List (Nat × Nat)) (hnd : (τ.map Prod.fst).Nodup)
    (i m : Nat) (hm : (i, m) ∈ τ) : τ.lookup i = some m := by
  induction τ with
  | nil => simp at hm
  | cons hd rest ih =>
    obtain ⟨k, v⟩ := hd
    have hnd2 : (k :: rest.map Prod.fst).Nodup := by simpa using hnd
    rcases List.mem_cons.1 hm with heq | hmem
    · injection heq with h1 h2
      subst h1
      subst h2
      simp [List.lookup_cons]
    · have hik : i ≠ k := by
        intro h
        subst h
        exact (List.nodup_cons.1 hnd2).1 (List.mem_map.2 ⟨(i, m), hmem, rfl⟩)
      rw [List.lookup_cons]
      rw [show (i == k) = false by simpa using hik]
      exact ih (List.nodup_cons.1 hnd2).2 hmem

theorem mem_value_unique (τ : List (Nat × Nat)) (hnd : (τ.map Prod.fst).Nodup)
    (i m1 m2 : Nat) (h1 : (i, m1) ∈ τ) (h2 : (i, m2) ∈ τ) : m1 = m2 := by
  have e1 := lookup_eq_of_mem τ hnd i m1 h1
  have e2 := lookup_eq_of_mem τ hnd i m2 h2
  rw [e1] at e2
  injection e2

theorem getD_range_map (f : Nat → Nat) (n i : Nat) (h : i < n) :
    ((List.range n).map f).getD i 0 = f i := by
  rw [List.getD_eq_getElem _ _ (by simpa using h)]
  simp

/-- A column mask of a tuple extending `σ` survives the `σ`-filter of its
column. -/
theorem colMask_mem_filtered (co : List (List Nat)) (size : Nat) (σ : List (Nat × Nat))
    (ms : List Nat) (j : Nat) (hsize : size ≤ 32) (hj : j < size)
    (hkeys : ∀ rm ∈ σ, rm.1 < size) (hlen : ms.length = size)
    (hext : extendsB σ ms = true) (hok : colMaskOf ms j ∈ co.getD j []) :
    colMaskOf ms j ∈ colFiltered co σ j := by
  rw [colFiltered, List.mem_filter]
  refine ⟨hok, ?_⟩
  rw [List.all_eq_true]
  rintro ⟨r, m⟩ hrm
  have hr : r < size := hkeys (r, m) hrm
  have hval : ms.getD r 0 = m := by
    have := (List.all_eq_true.1 hext) (r, m) hrm
    simpa using this
  rw [jsBit_eq_testBit _ r (by omega), colMaskOf_testBit ms j r (by omega) (by omega),
    hval, jsBit_eq_testBit _ j (by omega)]
  simp

/-- Invariant tying the backtracking state to the partial assignment `σ`. -/
def BTInv (ro co : List (List Nat)) (order : List Nat) (size : Nat)
    (σ : List (Nat × Nat)) (assigned : List Bool) (columnState : List (List Nat))
    (depth : Nat) : Prop :=
  depth ≤ size ∧ σ.length = depth ∧
  σ.map Prod.fst = order.take depth ∧
  (∀ rm ∈ σ, rm.2 ∈ ro.getD rm.1 []) ∧
  assigned.length = size ∧
  (∀ r, r < size → assigned.getD r false = decide (r ∈ order.take depth)) ∧
  columnState.length = size ∧
  (∀ j, j < size → columnState.getD j [] = colFiltered co σ j) ∧
  (∀ j, j < size → columnState.getD j [] ≠ [])

/-- With all rows assigned and every column's surviving option set
nonempty, exactly one full solution extends `σ`. -/
theorem extCount_full (ro co : List (List Nat)) (order : List Nat) (size : Nat)
    (σ : List (Nat × Nat))
    (hsize : size ≤ 32) (hroL : ro.length = size)
    (horder : order.Perm (List.range size))
    (hco_lt : ∀ j, j < size → ∀ c ∈ co.getD j [], c < 2 ^ size)
    (hro_nd : ∀ i, i < size → (ro.getD i []).Nodup)
    (hfst : σ.map Prod.fst = order)
    (hmems : ∀ rm ∈ σ, rm.2 ∈ ro.getD rm.1 [])
    (hcs : ∀ j, j < size → colFiltered co σ j ≠ []) :
    extCount ro co size σ = 1 := by
  have horderN : order.Nodup := horder.nodup_iff.2 (List.nodup_range size)
  have horderM : ∀ x, x ∈ order ↔ x < size := by
    intro x
    rw [horder.mem_iff, List.mem_range]
  have hkeysN : (σ.map Prod.fst).Nodup := hfst ▸ horderN
  have hkey : ∀ i, i < size → ∃ m, (i, m) ∈ σ := by
    intro i hi
    have : i ∈ σ.map Prod.fst := hfst ▸ (horderM i).2 hi
    simp only [List.mem_map] at this
    obtain ⟨rm, hrm, hf⟩ := this
    exact ⟨rm.2, by rw [← hf]; simpa using hrm⟩
  have hkeys_lt : ∀ rm ∈ σ, rm.1 < size := by
    intro rm hrm
    have : rm.1 ∈ σ.map Prod.fst := List.mem_map.2 ⟨rm, hrm, rfl⟩
    exact (horderM rm.1).1 (hfst ▸ this)
  set ms₀ := (List.range size).map (fun i => ((σ.lookup i).getD 0)) with hms₀
  have hms₀len : ms₀.length = size := by simp [hms₀]
  have hms₀mem : ∀ i, i < size → (i, ms₀.getD i 0) ∈ σ := by
    intro i hi
    obtain ⟨m, hm⟩ := hkey i hi
    have hl := lookup_eq_of_mem σ hkeysN i m hm
    rw [hms₀, getD_range_map _ _ _ hi, hl]
    exact hm
  have hms₀prod : ms₀ ∈ listProd ro := by
    apply mem_listProd_of_getD ro ms₀ 0 (by omega)
    intro i hi
    exact hmems _ (hms₀mem i (by omega))
  have hext0 : extendsB σ ms₀ = true := by
    rw [extendsB, List.all_eq_true]
    rintro ⟨r, m⟩ hrm
    have hr : r < size := hkeys_lt (r, m) hrm
    have := mem_value_unique σ hkeysN r (ms₀.getD r 0) m (hms₀mem r hr) hrm
    simpa using this
  have hcol0 : ∀ j, j < size → colMaskOf ms₀ j ∈ co.getD j [] := by
    intro j hj
    obtain ⟨c, hc⟩ := List.exists_mem_of_ne_nil _ (hcs j hj)
    have hcmem : c ∈ co.getD j [] := (List.mem_filter.1 hc).1
    have hagree := (List.mem_filter.1 hc).2
    have hceq : c = colMaskOf ms₀ j := by
      apply Nat.eq_of_testBit_eq
      intro i
      rcases Nat.lt_or_ge i size with hi | hi
      · have hpair := hms₀mem i hi
        have hag := (List.all_eq_true.1 hagree) (i, ms₀.getD i 0) hpair
        simp only at hag
        rw [jsBit_eq_testBit c i (by omega), jsBit_eq_testBit _ j (by omega), beq_iff_eq] at hag
        rw [colMaskOf_testBit ms₀ j i (by omega) (by omega)]
        cases hbc : c.testBit i <;> cases hbm : (ms₀.getD i 0).testBit j <;>
          rw [hbc, hbm] at hag <;> simp_all
      · rw [Nat.testBit_lt_two_pow (lt_of_lt_of_le (hco_lt j hj c hcmem)
            (Nat.pow_le_pow_right (by omega) hi)),
          Nat.testBit_lt_two_pow (lt_of_lt_of_le (hms₀len ▸ colMaskOf_lt ms₀ j)
            (Nat.pow_le_pow_right (by omega) hi))]
    rwa [← hceq]
  have hok0 : colsOKb co size ms₀ = true := by
    rw [colsOKb, List.all_eq_true]
    intro j hj
    rw [List.mem_range] at hj
    simpa [List.elem_iff] using hcol0 j hj
  have huniq : ∀ ms ∈ listProd ro, (extendsB σ ms && colsOKb co size ms) = true → ms = ms₀ := by
    intro ms hms hP
    have hext : extendsB σ ms = true := (Bool.and_eq_true_iff.1 hP).1
    have hlen : ms.length = size := by rw [listProd_length ro ms hms, hroL]
    apply List.ext_getElem (by omega)
    intro i h1 h2
    have hi : i < size := by omega
    have hpair := hms₀mem i hi
    have := (List.all_eq_true.1 hext) (i, ms₀.getD i 0) hpair
    simp only [beq_iff_eq] at this
    rw [← List.getD_eq_getElem ms 0 h1, ← List.getD_eq_getElem ms₀ 0 h2]
    exact this
  unfold extCount
  apply countP_eq_one_of_unique _ _ ms₀
  · apply nodup_listProd
    intro c hc
    obtain ⟨i, hi, rfl⟩ := List.getElem_of_mem hc
    have : ro[i] = ro.getD i [] := (List.getD_eq_getElem ro [] hi).symm
    rw [this]
    exact hro_nd i (by omega)
  · exact hms₀prod
  · rw [hext0, hok0]
    rfl
  · exact huniq

/-- `extCount` splits along the options of any row `r`. -/
theorem extCount_decompose (ro co : List (List Nat)) (size : Nat) (σ : List (Nat × Nat))
    (r : Nat) (hroL : ro.length = size) (hr : r < size)
    (hnd : (ro.getD r []).Nodup) :
    extCount ro co size σ =
      ((ro.getD r []).map (fun m => extCount ro co size (σ ++ [(r, m)]))).sum := by
  unfold extCount
  rw [countP_partition (listProd ro) _ (fun ms => ms.getD r 0) (ro.getD r []) hnd
    (fun ms hms _ => listProd_getD_mem ro ms 0 hms r (by omega))]
  congr 1
  apply List.map_congr_left
  intro m hm
  apply List.countP_congr
  intro ms hms
  rw [extendsB_append]
  constructor
  · intro h
    simp only [Bool.and_eq_true] at h ⊢
    exact ⟨⟨h.1.1, h.2⟩, h.1.2⟩
  · intro h
    simp only [Bool.and_eq_true] at h ⊢
    exact ⟨⟨h.1.1, h.2⟩, h.1.2⟩

theorem getD_set_self (l : List Bool) (i : Nat) (a : Bool) (hi : i < l.length) :
    (l.set i a).getD i false = a := by
  rw [List.getD_eq_getElem?_getD, List.getElem?_set_self (by simpa using hi)]
  simp

theorem getD_set_ne (l : List Bool) (i j : Nat) (a : Bool) (hne : i ≠ j) :
    (l.set i a).getD j false = l.getD j false := by
  rw [List.getD_eq_getElem?_getD, List.getElem?_set_ne hne, ← List.getD_eq_getElem?_getD]

/-- The `find?` in `backtrack` selects the `depth`-th row of the
processing order. -/
theorem find_next_row (order : List Nat) (assigned : List Bool) (size depth : Nat)
    (horderL : order.length = size) (horderN : order.Nodup)
    (horderM : ∀ x ∈ order, x < size)
    (hass : ∀ r, r < size → assigned.getD r false = decide (r ∈ order.take depth))
    (hd : depth < size) :
    order.find? (fun row => !(assigned.getD row false)) = some (order.getD depth 0) := by
  have hstep : order.find? (fun row => !(assigned.getD row false))
      = (order.take depth ++ order.drop depth).find? (fun row => !(assigned.getD row false)) := by
    rw [List.take_append_drop]
  rw [hstep, List.find?_append]
  have h1 : (order.take depth).find? (fun row => !(assigned.getD row false)) = none := by
    rw [List.find?_eq_none]
    intro x hx
    have hxs : x < size := horderM x (List.mem_of_mem_take hx)
    rw [hass x hxs, decide_eq_true hx]
    simp
  rw [h1]
  have hdrop : order.drop depth = order.getD depth 0 :: order.drop (depth + 1) := by
    rw [List.getD_eq_getElem order 0 (by omega)]
    exact List.drop_eq_getElem_cons (by omega)
  have hnotin : order.getD depth 0 ∉ order.take depth := by
    intro hc
    have hd2 : order.getD depth 0 ∈ order.drop depth := by
      rw [hdrop]
      exact List.mem_cons_self ..
    exact (List.disjoint_take_drop horderN (le_refl depth)) hc hd2
  rw [hdrop, List.find?_cons_of_pos]
  · simp
  · have hlt : order.getD depth 0 < size := horderM _ (by
      rw [List.getD_eq_getElem order 0 (by omega)]
      exact List.getElem_mem _)
    rw [hass _ hlt, decide_eq_false hnotin]
    simp

/-- Main correctness of `backtrack`: starting from any state reachable as a
partial assignment `σ`, the result caps `found` plus the number of full
solutions extending `σ` at `limit`. -/
theorem backtrack_eq_min (size limit : Nat) (ro co : List (List Nat)) (order : List Nat)
    (hsize : size ≤ 32) (hroL : ro.length = size) (hcoL : co.length = size)
    (horder : order.Perm (List.range size))
    (hco_lt : ∀ j, j < size → ∀ c ∈ co.getD j [], c < 2 ^ size)
    (hro_nd : ∀ i, i < size → (ro.getD i []).Nodup) :
    ∀ (gas : Nat) (σ : List (Nat × Nat)) (assigned : List Bool)
      (columnState : List (List Nat)) (depth found : Nat),
      BTInv ro co order size σ assigned columnState depth →
      size < gas + depth → found ≤ limit →
      backtrack size limit ro order gas assigned columnState depth found
        = min limit (found + extCount ro co size σ) := by
  have horderL : order.length = size := by rw [horder.length_eq, List.length_range]
  have horderN : order.Nodup := horder.nodup_iff.2 (List.nodup_range size)
  have horderM : ∀ x ∈ order, x < size := fun x hx => List.mem_range.1 (horder.mem_iff.1 hx)
  intro gas
  induction gas with
  | zero =>
    intro σ assigned columnState depth found hInv hgas hfound
    obtain ⟨hdle, -⟩ := hInv
    omega
  | succ gas ih =>
    intro σ assigned columnState depth found hInv hgas hfound
    obtain ⟨hdle, hσlen, hfst, hmems, hassL, hass, hcsL, hcsEq, hcsNE⟩ := hInv
    by_cases hlim : limit ≤ found
    · have h1 : backtrack size limit ro order (gas + 1) assigned columnState depth found
          = found := by
        simp [backtrack, hlim]
      rw [h1]
      omega
    · by_cases hdepth : depth = size
      · have h1 : backtrack size limit ro order (gas + 1) assigned columnState depth found
            = found + 1 := by
          simp [backtrack, hlim, hdepth]
        have hfst2 : σ.map Prod.fst = order := by
          rw [hfst, hdepth, ← horderL, List.take_length]
        rw [h1, extCount_full ro co order size σ hsize hroL horder hco_lt hro_nd
          hfst2 hmems (fun j hj => (hcsEq j hj) ▸ hcsNE j hj)]
        omega
      · have hdlt : depth < size := by omega
        set r := order.getD depth 0 with hr
        have hfind := find_next_row order assigned size depth horderL horderN horderM hass hdlt
        have hrmem : r ∈ order := by
          rw [hr, List.getD_eq_getElem order 0 (by omega)]
          exact List.getElem_mem _
        have hrlt : r < size := horderM r hrmem
        have hre : order[depth]? = some r := by
          rw [List.getElem?_eq_getElem (show depth < order.length by omega), hr,
            List.getD_eq_getElem order 0 (show depth < order.length by omega)]
        have hrnotin : r ∉ order.take depth := by
          intro hc
          have hd2 : r ∈ order.drop depth := by
            rw [List.drop_eq_getElem_cons (show depth < order.length by omega)]
            rw [hr, List.getD_eq_getElem order 0 (show depth < order.length by omega)]
            exact List.mem_cons_self ..
          exact (List.disjoint_take_drop horderN (le_refl depth)) hc hd2
        have hσkeys : ∀ rm ∈ σ, rm.1 < size := by
          intro rm hrm
          have : rm.1 ∈ σ.map Prod.fst := List.mem_map.2 ⟨rm, hrm, rfl⟩
          rw [hfst] at this
          exact horderM _ (List.mem_of_mem_take this)
        have hfold : ∀ (opts : List Nat), (∀ m ∈ opts, m ∈ ro.getD r []) →
            ∀ (acc : Nat), acc ≤ limit →
            opts.foldl (fun acc mask => if limit ≤ acc then acc
              else match filterColumns r mask columnState with
                | none => acc
                | some newState =>
                  backtrack size limit ro order gas (assigned.set r true) newState
                    (depth + 1) acc) acc
              = min limit (acc + (opts.map
                  (fun m => extCount ro co size (σ ++ [(r, m)]))).sum) := by
          intro opts
          induction opts with
          | nil =>
            intro _ acc hacc
            simp only [List.foldl_nil, List.map_nil, List.sum_nil, Nat.add_zero]
            omega
          | cons m opts ihopts =>
            intro hmem acc hacc
            simp only [List.foldl_cons, List.map_cons, List.sum_cons]
            by_cases hacc2 : limit ≤ acc
            · rw [if_pos hacc2, ihopts (fun y hy => hmem y (by simp [hy])) acc hacc]
              omega
            · rw [if_neg hacc2]
              cases hfc : filterColumns r m columnState with
              | none =>
                have hE0 : extCount ro co size (σ ++ [(r, m)]) = 0 := by
                  obtain ⟨k, hkl, hke⟩ := filterColumnsAux_none r m columnState 0 hfc
                  have hks : k < size := by omega
                  rw [hcsEq k hks] at hke
                  simp only [Nat.zero_add] at hke
                  have hempty : colFiltered co (σ ++ [(r, m)]) k = [] := by
                    rw [colFiltered_append]
                    exact hke
                  unfold extCount
                  rw [List.countP_eq_zero]
                  intro ms hms hP
                  have hext : extendsB (σ ++ [(r, m)]) ms = true :=
                    (Bool.and_eq_true_iff.1 hP).1
                  have hok : colsOKb co size ms = true := (Bool.and_eq_true_iff.1 hP).2
                  have hlenms : ms.length = size := by rw [listProd_length ro ms hms, hroL]
                  have hkmem : colMaskOf ms k ∈ co.getD k [] := by
                    have := (List.all_eq_true.1 hok) k (List.mem_range.2 hks)
                    simpa [List.elem_iff] using this
                  have hkeys2 : ∀ rm ∈ σ ++ [(r, m)], rm.1 < size := by
                    intro rm hrm
                    rcases List.mem_append.1 hrm with h | h
                    · exact hσkeys rm h
                    · simp only [List.mem_singleton] at h
                      subst h
                      simpa using hrlt
                  have := colMask_mem_filtered co size (σ ++ [(r, m)]) ms k hsize hks
                    hkeys2 hlenms hext hkmem
                  rw [hempty] at this
                  simp at this
                have hgoal := ihopts (fun y hy => hmem y (by simp [hy])) acc hacc
                show List.foldl _ acc opts = _
                rw [hgoal, hE0]
                omega
              | some newState =>
                obtain ⟨hnsL, hnsPt, hnsNE⟩ :=
                  filterColumnsAux_some r m columnState 0 newState hfc
                have hInv2 : BTInv ro co order size (σ ++ [(r, m)])
                    (assigned.set r true) newState (depth + 1) := by
                  refine ⟨by omega, by simp [hσlen], ?_, ?_, ?_, ?_, ?_, ?_, ?_⟩
                  · rw [List.map_append, hfst, List.take_succ, hre]
                    simp
                  · intro rm hrm
                    rcases List.mem_append.1 hrm with h | h
                    · exact hmems rm h
                    · simp only [List.mem_singleton] at h
                      subst h
                      simpa using hmem m (List.mem_cons_self ..)
                  · simpa using hassL
                  · intro r2 hr2
                    by_cases hrr : r2 = r
                    · subst hrr
                      rw [getD_set_self assigned r true (by omega)]
                      have hmem2 : r ∈ order.take (depth + 1) := by
                        rw [List.take_succ, hre]
                        simp
                      simp [hmem2]
                    · rw [getD_set_ne assigned r r2 true (fun h => hrr h.symm), hass r2 hr2]
                      have : (r2 ∈ order.take (depth + 1)) ↔ (r2 ∈ order.take depth) := by
                        rw [List.take_succ, hre]
                        simp [hrr]
                      simp [this]
                  · rw [hnsL]
                    exact hcsL
                  · intro j hj
                    rw [hnsPt j (by omega), hcsEq j hj, colFiltered_append]
                    simp only [Nat.zero_add]
                  · intro j hj
                    exact hnsNE j (by omega)
                have hrec := ih (σ ++ [(r, m)]) (assigned.set r true) newState (depth + 1)
                  acc hInv2 (by omega) (by omega)
                have hcont := ihopts (fun y hy => hmem y (by simp [hy]))
                  (min limit (acc + extCount ro co size (σ ++ [(r, m)]))) (by omega)
                show List.foldl _ (backtrack size limit ro order gas (assigned.set r true)
                  newState (depth + 1) acc) opts = _
                rw [hrec, hcont]
                omega
        have hstep : backtrack size limit ro order (gas + 1) assigned columnState depth found
            = (ro.getD r []).foldl (fun acc mask => if limit ≤ acc then acc
                else match filterColumns r mask columnState with
                  | none => acc
                  | some newState =>
                    backtrack size limit ro order gas (assigned.set r true) newState
                      (depth + 1) acc) found := by
          simp only [backtrack]
          rw [if_neg hlim, if_neg hdepth, hfind]
        rw [hstep, hfold (ro.getD r []) (fun m hm => hm) found (by omega),
          ← extCount_decompose ro co size σ r hroL hrlt (hro_nd r hrlt)]

/-! ## Bridging grids and row-mask tuples -/

theorem getD_map {α β : Type} (f : α → β) (l : List α) (i : Nat) (d : β) (d2 : α)
    (h : i < l.length) : (l.map f).getD i d = f (l.getD i d2) := by
  rw [List.getD_eq_getElem _ _ (by simpa using h), List.getD_eq_getElem _ _ h]
  simp

theorem ext_getD {α : Type} (d : α) (l1 l2 : List α) (hlen : l1.length = l2.length)
    (h : ∀ i, i < l1.length → l1.getD i d = l2.getD i d) : l1 = l2 := by
  apply List.ext_getElem hlen
  intro i h1 h2
  have := h i h1
  rwa [List.getD_eq_getElem _ _ h1, List.getD_eq_getElem _ _ h2] at this

theorem mem_allGrids (size : Nat) (g : List (List Nat)) :
    g ∈ allGrids size ↔ g.length = size ∧ ∀ row ∈ g, row.length = size ∧ IsBoolLine row := by
  unfold allGrids
  rw [mem_listProd]
  constructor
  · intro h
    have hlen : g.length = size := by simpa using h.length_eq
    refine ⟨hlen, ?_⟩
    intro row hrow
    obtain ⟨i, hi, hrow2⟩ := List.getElem_of_mem hrow
    obtain ⟨-, hget⟩ := List.forall₂_iff_get.1 h
    have hmem := hget i hi (by simpa using (by omega : i < size))
    rw [List.get_eq_getElem, List.get_eq_getElem, List.getElem_replicate] at hmem
    rw [← hrow2]
    exact (mem_allLines size _).1 hmem
  · rintro ⟨hlen, hrows⟩
    rw [List.forall₂_iff_get]
    refine ⟨by simpa using hlen, ?_⟩
    intro i h1 h2
    rw [List.get_eq_getElem, List.get_eq_getElem, List.getElem_replicate]
    exact (mem_allLines size _).2 ⟨(hrows _ (List.getElem_mem h1)).1,
      (hrows _ (List.getElem_mem h1)).2⟩

theorem nodup_allGrids (size : Nat) : (allGrids size).Nodup := by
  apply nodup_listProd
  intro c hc
  rw [List.eq_of_mem_replicate hc]
  exact nodup_allLines size

theorem listProd_eq_nil {α : Type} : ∀ (choices : List (List α)),
    [] ∈ choices → listProd choices = [] := by
  intro choices
  induction choices with
  | nil => intro h; simp at h
  | cons c rest ih =>
    intro h
    rcases List.mem_cons.1 h with rfl | hmem
    · simp [listProd]
    · rw [listProd, ih hmem]
      simp

theorem encRows_inj (size : Nat) (g1 g2 : List (List Nat))
    (h1 : g1 ∈ allGrids size) (h2 : g2 ∈ allGrids size)
    (heq : g1.map encodeLine = g2.map encodeLine) : g1 = g2 := by
  obtain ⟨hl1, hr1⟩ := (mem_allGrids size g1).1 h1
  obtain ⟨hl2, hr2⟩ := (mem_allGrids size g2).1 h2
  apply ext_getD [] _ _ (by omega)
  intro i hi
  have hmap := congrArg (fun l => l.getD i 0) heq
  simp only at hmap
  rw [getD_map encodeLine g1 i 0 [] hi, getD_map encodeLine g2 i 0 [] (by omega)] at hmap
  have hmem1 : g1.getD i [] ∈ g1 := by
    rw [List.getD_eq_getElem _ _ hi]
    exact List.getElem_mem hi
  have hmem2 : g2.getD i [] ∈ g2 := by
    rw [List.getD_eq_getElem _ _ (by omega : i < g2.length)]
    exact List.getElem_mem _
  obtain ⟨hlen1, hb1⟩ := hr1 _ hmem1
  obtain ⟨hlen2, hb2⟩ := hr2 _ hmem2
  calc g1.getD i [] = decodeLine (encodeLine (g1.getD i [])) (g1.getD i []).length :=
        (decode_encodeLine _ hb1).symm
    _ = decodeLine (encodeLine (g2.getD i [])) (g2.getD i []).length := by
        rw [hmap, hlen1, hlen2]
    _ = g2.getD i [] := decode_encodeLine _ hb2

/-- Derived hints of the canonical line of a produced mask. -/
theorem maskHints_of_mem (length : Nat) (hlen : length ≤ 32) (hints : List Nat)
    (hpos : ∀ h ∈ hints, 0 < h) (x : Nat) (hx : x ∈ buildLineMasks length hints) :
    deriveLineHints (decodeLine x length) = hints := by
  obtain ⟨line, hl, hbool, hder, rfl⟩ := (buildLineMasks_mem_iff length hlen hints hpos x).1 hx
  rw [show length = line.length from hl.symm, decode_encodeLine line hbool, hder]

theorem transpose_getD_eq (g : List (List Nat)) (j : Nat) (hj : j < (g.headD []).length) :
    (transpose g).getD j [] = g.map (fun row => row.getD j 0) := by
  rw [transpose, List.getD_eq_getElem _ _ (by simpa using hj)]
  simp

theorem transpose_length (g : List (List Nat)) : (transpose g).length = (g.headD []).length := by
  simp [transpose]

theorem grid_headD_length (g : List (List Nat)) (size : Nat)
    (hg : g.length = size) (hrows : ∀ row ∈ g, row.length = size) :
    (g.headD []).length = size := by
  cases g with
  | nil => simpa using hg
  | cons a t => simpa using hrows a (by simp)

/-- `jsBit` of an encoded 0/1 line recovers the cell. -/
theorem jsBit_encodeLine (row : List Nat) (j : Nat) (hrow : IsBoolLine row) (hj : j < 32) :
    jsBit (encodeLine row) j = row.getD j 0 := by
  rw [jsBit_eq_testBit _ j hj, encodeLine_testBit]
  rcases Nat.lt_or_ge j row.length with h | h
  · have hmem : row.getD j 0 ∈ row := by
      rw [List.getD_eq_getElem _ _ h]
      exact List.getElem_mem h
    rcases hrow _ hmem with h0 | h1
    · rw [h0]
      simp
    · rw [h1]
      simp
  · rw [List.getD_eq_default _ _ h]
    simp

/-- The canonical line of a column mask is the bit-column of the tuple. -/
theorem decode_colMask (ms : List Nat) (j size : Nat) (hlen : ms.length = size)
    (hj : j < 32) : decodeLine (colMaskOf ms j) size = ms.map (fun m => jsBit m j) := by
  apply ext_getD 0 _ _ (by simp [decodeLine_length, hlen])
  intro i hi
  have his : i < size := by simpa [decodeLine_length] using hi
  rw [decodeLine_getD _ _ _ his, getD_map _ ms i 0 0 (by omega), shiftRight_and_one,
    colMaskOf_testBit ms j i hj (by omega), jsBit_eq_testBit _ j hj]

theorem getD_isBool (row : List Nat) (hb : IsBoolLine row) (j : Nat) :
    row.getD j 0 = 0 ∨ row.getD j 0 = 1 := by
  rcases Nat.lt_or_ge j row.length with h | h
  · refine hb _ ?_
    rw [List.getD_eq_getElem _ _ h]
    exact List.getElem_mem h
  · rw [List.getD_eq_default _ _ h]
    exact Or.inl rfl

/-- The number of full solutions seen by the backtracking search equals the
specification's count over all 0/1 grids. -/
theorem extCount_nil_eq_solutionCount (rows cols : List (List Nat)) (size : Nat)
    (hsize : size ≤ 32) (hrl : rows.length = size) (hcl : cols.length = size)
    (hrpos : ∀ hs ∈ rows, ∀ h ∈ hs, 0 < h) (hcpos : ∀ hs ∈ cols, ∀ h ∈ hs, 0 < h) :
    extCount (rows.map (fun hintLine => buildLineMasks size hintLine))
      (cols.map (fun hintLine => buildLineMasks size hintLine)) size []
      = solutionCount rows cols size := by
  set ro := rows.map (fun hintLine => buildLineMasks size hintLine) with hro
  set co := cols.map (fun hintLine => buildLineMasks size hintLine) with hco
  have hroL : ro.length = size := by simp [hro, hrl]
  have hcoL : co.length = size := by simp [hco, hcl]
  have hroPt : ∀ i, i < size → ro.getD i [] = buildLineMasks size (rows.getD i []) := by
    intro i hi
    rw [hro]
    exact getD_map _ rows i [] [] (by omega)
  have hcoPt : ∀ j, j < size → co.getD j [] = buildLineMasks size (cols.getD j []) := by
    intro j hj
    rw [hco]
    exact getD_map _ cols j [] [] (by omega)
  have hrPos : ∀ i, i < size → ∀ h ∈ rows.getD i [], 0 < h := by
    intro i hi
    apply hrpos
    rw [List.getD_eq_getElem _ _ (by omega)]
    exact List.getElem_mem _
  have hcPos : ∀ j, j < size → ∀ h ∈ cols.getD j [], 0 < h := by
    intro j hj
    apply hcpos
    rw [List.getD_eq_getElem _ _ (by omega)]
    exact List.getElem_mem _
  have hext : extCount ro co size [] = (listProd ro).countP (fun ms => colsOKb co size ms) := by
    unfold extCount
    apply List.countP_congr
    intro ms hms
    simp [extendsB]
  rw [hext, solutionCount, List.countP_eq_length_filter, List.countP_eq_length_filter]
  set A := (allGrids size).filter
    (fun g => gridRowHints g == rows && gridColHints g == cols) with hA
  set B := (listProd ro).filter (fun ms => colsOKb co size ms) with hB
  suffices hperm : (A.map (fun g => g.map encodeLine)).Perm B by
    rw [← hperm.length_eq, List.length_map]
  apply List.perm_of_nodup_nodup_toFinset_eq
  · apply List.Nodup.map_on
    · intro x hx y hy hxy
      exact encRows_inj size x y (List.mem_filter.1 (hA ▸ hx)).1
        (List.mem_filter.1 (hA ▸ hy)).1 hxy
    · exact (nodup_allGrids size).filter _
  · apply List.Nodup.filter
    apply nodup_listProd
    intro c hc
    obtain ⟨i, hi, rfl⟩ := List.getElem_of_mem hc
    have hisz : i < size := by omega
    have : ro[i] = ro.getD i [] := (List.getD_eq_getElem ro [] hi).symm
    rw [this, hroPt i hisz]
    exact buildLineMasks_nodup size hsize _ (hrPos i hisz)
  · apply Finset.ext
    intro x
    simp only [List.mem_toFinset]
    constructor
    · intro hx
      obtain ⟨g, hgA, rfl⟩ := List.mem_map.1 hx
      obtain ⟨hga, hgP⟩ := List.mem_filter.1 (hA ▸ hgA)
      obtain ⟨hgPr, hgPc⟩ := Bool.and_eq_true_iff.1 hgP
      have hPr : gridRowHints g = rows := by simpa using hgPr
      have hPc : gridColHints g = cols := by simpa using hgPc
      obtain ⟨hgl, hgrows⟩ := (mem_allGrids size g).1 hga
      have hhead : (g.headD []).length = size :=
        grid_headD_length g size hgl (fun row hr => (hgrows row hr).1)
      have hrowD : ∀ i, i < size → (g.getD i []).length = size ∧ IsBoolLine (g.getD i []) := by
        intro i hi
        have hmem : g.getD i [] ∈ g := by
          rw [List.getD_eq_getElem _ _ (by omega)]
          exact List.getElem_mem _
        exact hgrows _ hmem
      have hderiveRow : ∀ i, i < size → deriveLineHints (g.getD i []) = rows.getD i [] := by
        intro i hi
        have := congrArg (fun l => l.getD i []) hPr
        simp only at this
        rwa [gridRowHints, getD_map deriveLineHints g i [] [] (by omega)] at this
      rw [hB, List.mem_filter]
      constructor
      · apply mem_listProd_of_getD ro _ 0 (by simp [hroL, hgl])
        intro i hi
        have hisz : i < size := by omega
        rw [getD_map encodeLine g i 0 [] (by omega), hroPt i hisz]
        apply (buildLineMasks_mem_iff size hsize _ (hrPos i hisz) _).2
        exact ⟨g.getD i [], (hrowD i hisz).1, (hrowD i hisz).2, hderiveRow i hisz, rfl⟩
      · rw [colsOKb, List.all_eq_true]
        intro j hjr
        have hj : j < size := List.mem_range.1 hjr
        have hxmap : (g.map encodeLine).map (fun m => jsBit m j)
            = g.map (fun row => row.getD j 0) := by
          rw [List.map_map]
          apply List.map_congr_left
          intro row hrow
          exact jsBit_encodeLine row j (hgrows row hrow).2 (by omega)
        have hcolline : (transpose g).getD j [] = g.map (fun row => row.getD j 0) :=
          transpose_getD_eq g j (by omega)
        have hderiveCol : deriveLineHints ((transpose g).getD j []) = cols.getD j [] := by
          have := congrArg (fun l => l.getD j []) hPc
          simp only at this
          rwa [gridColHints, getD_map deriveLineHints (transpose g) j [] []
            (by rw [transpose_length, hhead]; omega)] at this
        rw [List.elem_iff, hcoPt j hj]
        apply (buildLineMasks_mem_iff size hsize _ (hcPos j hj) _).2
        refine ⟨g.map (fun row => row.getD j 0), by simp [hgl], ?_, ?_, ?_⟩
        · intro c hcmem
          obtain ⟨row, hrow, rfl⟩ := List.mem_map.1 hcmem
          exact getD_isBool row (hgrows row hrow).2 j
        · rw [← hcolline, hderiveCol]
        · rw [colMaskOf, hxmap]
    · intro hx
      obtain ⟨hx1, hx2⟩ := List.mem_filter.1 (hB ▸ hx)
      have hxl : x.length = size := by rw [listProd_length ro x hx1, hroL]
      have hximem : ∀ i, i < size → x.getD i 0 ∈ buildLineMasks size (rows.getD i []) := by
        intro i hi
        have := listProd_getD_mem ro x 0 hx1 i (by omega)
        rwa [hroPt i hi] at this
      have hxlt : ∀ i, i < size → x.getD i 0 < 2 ^ size := by
        intro i hi
        exact buildLineMasks_lt_two_pow size hsize _ (hrPos i hi) _ (hximem i hi)
      have hxlt2 : ∀ m ∈ x, m < 2 ^ size := by
        intro m hm
        obtain ⟨i, hi, rfl⟩ := List.getElem_of_mem hm
        have := hxlt i (by omega)
        rwa [List.getD_eq_getElem _ _ hi] at this
      set g := x.map (fun mi => decodeLine mi size) with hg
      have hga : g ∈ allGrids size := by
        rw [mem_allGrids]
        refine ⟨by simp [hg, hxl], ?_⟩
        intro row hrow
        obtain ⟨mi, -, rfl⟩ := List.mem_map.1 (hg ▸ hrow)
        exact ⟨decodeLine_length mi size, decodeLine_isBool mi size⟩
      have hgenc : g.map encodeLine = x := by
        rw [hg, List.map_map]
        have : x.map (encodeLine ∘ fun mi => decodeLine mi size) = x.map id := by
          apply List.map_congr_left
          intro m hm
          exact encode_decodeLine m size (hxlt2 m hm)
        rw [this, List.map_id]
      have hcolsOK : ∀ j, j < size → colMaskOf x j ∈ buildLineMasks size (cols.getD j []) := by
        intro j hj
        have := (List.all_eq_true.1 hx2) j (List.mem_range.2 hj)
        rw [List.elem_iff, hcoPt j hj] at this
        exact this
      have hPr : gridRowHints g = rows := by
        apply ext_getD [] _ _ (by simp [gridRowHints, hg, hxl, hrl])
        intro i hi
        have hisz : i < size := by simpa [gridRowHints, hg, hxl] using hi
        rw [gridRowHints, getD_map deriveLineHints g i [] [] (by simpa [gridRowHints] using hi),
          hg, getD_map _ x i [] 0 (by omega)]
        exact maskHints_of_mem size hsize _ (hrPos i hisz) _ (hximem i hisz)
      have hghead : (g.headD []).length = size :=
        grid_headD_length g size (by simp [hg, hxl])
          (fun row hrow => ((mem_allGrids size g).1 hga).2 row hrow |>.1)
      have hPc : gridColHints g = cols := by
        apply ext_getD [] _ _ (by rw [gridColHints, List.length_map, transpose_length, hghead, hcl])
        intro j hj
        have hjsz : j < size := by
          rwa [gridColHints, List.length_map, transpose_length, hghead] at hj
        rw [gridColHints, getD_map deriveLineHints (transpose g) j [] []
          (by rw [transpose_length, hghead]; omega), transpose_getD_eq g j (by omega)]
        have hcolline : g.map (fun row => row.getD j 0) = decodeLine (colMaskOf x j) size := by
          rw [decode_colMask x j size hxl (by omega), hg, List.map_map]
          apply List.map_congr_left
          intro m hm
          simp only [Function.comp]
          rw [decodeLine_getD m size j (by omega), jsBit, Nat.mod_eq_of_lt (by omega)]
        rw [hcolline]
        exact maskHints_of_mem size hsize _ (hcPos j hjsz) _ (hcolsOK j hjsz)
      apply List.mem_map.2
      refine ⟨g, ?_, hgenc⟩
      rw [hA, List.mem_filter]
      refine ⟨hga, ?_⟩
      rw [hPr, hPc]
      simp

/-- Full functional correctness of `countSolutions` for grid sizes up to
32: the result is the number of solution grids, capped at `limit`. -/
theorem countSolutions_eq_min (rows cols : List (List Nat)) (size limit : Nat)
    (hsize : size ≤ 32) (hrl : rows.length = size) (hcl : cols.length = size)
    (hrpos : ∀ hs ∈ rows, ∀ h ∈ hs, 0 < h) (hcpos : ∀ hs ∈ cols, ∀ h ∈ hs, 0 < h) :
    countSolutions rows cols size limit = min limit (solutionCount rows cols size) := by
  have hroL : (rows.map (fun hintLine => buildLineMasks size hintLine)).length = size := by
    simp [hrl]
  have hcoL : (cols.map (fun hintLine => buildLineMasks size hintLine)).length = size := by
    simp [hcl]
  have hroPt : ∀ i, i < size →
      (rows.map (fun hintLine => buildLineMasks size hintLine)).getD i []
        = buildLineMasks size (rows.getD i []) :=
    fun i hi => getD_map _ rows i [] [] (by omega)
  have hcoPt : ∀ j, j < size →
      (cols.map (fun hintLine => buildLineMasks size hintLine)).getD j []
        = buildLineMasks size (cols.getD j []) :=
    fun j hj => getD_map _ cols j [] [] (by omega)
  have hrPos : ∀ i, i < size → ∀ h ∈ rows.getD i [], 0 < h := by
    intro i hi
    apply hrpos
    rw [List.getD_eq_getElem _ _ (by omega)]
    exact List.getElem_mem _
  have hcPos : ∀ j, j < size → ∀ h ∈ cols.getD j [], 0 < h := by
    intro j hj
    apply hcpos
    rw [List.getD_eq_getElem _ _ (by omega)]
    exact List.getElem_mem _
  have hco_lt : ∀ j, j < size →
      ∀ c ∈ (cols.map (fun hintLine => buildLineMasks size hintLine)).getD j [],
        c < 2 ^ size := by
    intro j hj c hc
    rw [hcoPt j hj] at hc
    exact buildLineMasks_lt_two_pow size hsize _ (hcPos j hj) c hc
  have hro_nd : ∀ i, i < size →
      ((rows.map (fun hintLine => buildLineMasks size hintLine)).getD i []).Nodup := by
    intro i hi
    rw [hroPt i hi]
    exact buildLineMasks_nodup size hsize _ (hrPos i hi)
  simp only [countSolutions]
  by_cases hempty : ((rows.map (fun hintLine => buildLineMasks size hintLine)).any
      (fun options => options.length == 0)
      || (cols.map (fun hintLine => buildLineMasks size hintLine)).any
        (fun options => options.length == 0)) = true
  · rw [if_pos hempty]
    have hsc : solutionCount rows cols size = 0 := by
      rw [← extCount_nil_eq_solutionCount rows cols size hsize hrl hcl hrpos hcpos]
      rcases Bool.or_eq_true_iff.1 hempty with h | h
      · obtain ⟨o, ho, hoe⟩ := List.any_eq_true.1 h
        have hoeq : o = [] := List.length_eq_zero.1 (by simpa using hoe)
        subst hoeq
        unfold extCount
        rw [listProd_eq_nil _ ho]
        simp
      · obtain ⟨o, ho, hoe⟩ := List.any_eq_true.1 h
        have hoeq : o = [] := List.length_eq_zero.1 (by simpa using hoe)
        obtain ⟨j, hj, hoj⟩ := List.getElem_of_mem ho
        have hjsz : j < size := by
          rw [hcoL] at hj
          omega
        unfold extCount
        rw [List.countP_eq_zero]
        intro ms hms hP
        have hok := (Bool.and_eq_true_iff.1 hP).2
        have hmemj := (List.all_eq_true.1 hok) j (List.mem_range.2 hjsz)
        rw [List.elem_iff, List.getD_eq_getElem _ _ hj, hoj, hoeq] at hmemj
        simp at hmemj
    rw [hsc]
    simp
  · rw [if_neg hempty]
    have h2 : ((rows.map (fun hintLine => buildLineMasks size hintLine)).any
        (fun options => options.length == 0)
        || (cols.map (fun hintLine => buildLineMasks size hintLine)).any
          (fun options => options.length == 0)) = false := Bool.eq_false_iff.2 hempty
    have hnne := Bool.or_eq_false_iff.1 h2
    have hcoNE : ∀ j, j < size →
        (cols.map (fun hintLine => buildLineMasks size hintLine)).getD j [] ≠ [] := by
      intro j hj habs
      have hmem : (cols.map (fun hintLine => buildLineMasks size hintLine)).getD j []
          ∈ cols.map (fun hintLine => buildLineMasks size hintLine) := by
        rw [List.getD_eq_getElem _ _ (by omega)]
        exact List.getElem_mem _
      have := List.any_eq_false.1 hnne.2 _ hmem
      rw [habs] at this
      simp at this
    have hmapid : ((cols.map (fun hintLine => buildLineMasks size hintLine)).map
        (fun options => options)) = cols.map (fun hintLine => buildLineMasks size hintLine) := by
      simp
    rw [hmapid]
    have hInv0 : BTInv (rows.map (fun hintLine => buildLineMasks size hintLine))
        (cols.map (fun hintLine => buildLineMasks size hintLine))
        (List.insertionSort (fun a b =>
          ((rows.map (fun hintLine => buildLineMasks size hintLine)).getD a []).length ≤
          ((rows.map (fun hintLine => buildLineMasks size hintLine)).getD b []).length)
          (List.range size))
        size [] (List.replicate size false)
        (cols.map (fun hintLine => buildLineMasks size hintLine)) 0 := by
      refine ⟨by omega, rfl, by simp, by simp, by simp, ?_, hcoL, ?_, ?_⟩
      · intro r hr
        rw [getD_replicate]
        simp
      · intro j hj
        rw [colFiltered]
        have : (fun c => List.all [] (fun rm : Nat × Nat => jsBit c rm.1 == jsBit rm.2 j))
            = (fun c : Nat => true) := by
          funext c
          simp
        rw [this, List.filter_true]
      · intro j hj
        exact hcoNE j hj
    rw [backtrack_eq_min size limit
      (rows.map (fun hintLine => buildLineMasks size hintLine))
      (cols.map (fun hintLine => buildLineMasks size hintLine)) _
      hsize hroL hcoL (List.perm_insertionSort _ _) hco_lt hro_nd
      (size + 1) [] (List.replicate size false) _ 0 0 hInv0 (by omega) (by omega)]
    rw [extCount_nil_eq_solutionCount rows cols size hsize hrl hcl hrpos hcpos]
    simp

/-! ## The 33×33 wrap counterexample instance -/

/-- Hints `[[1], [], [], …]` (33 lines): one filled cell, top-left corner. -/
def rows33 : List (List Nat) := [1] :: List.replicate 32 []

/-- The unique 33×33 grid with those row and column hints. -/
def g33 : List (List Nat) :=
  (1 :: List.replicate 32 0) :: List.replicate 32 (List.replicate 33 0)

theorem rows33_getD_succ (k : Nat) : rows33.getD (k + 1) [] = [] := by
  show (List.replicate 32 ([] : List Nat)).getD k [] = []
  rw [getD_replicate]
  split <;> rfl

/-- Exactly one 33×33 boolean grid has row hints `rows33` and column hints
`rows33`: the grid `g33`. -/
theorem solutionCount_rows33 : solutionCount rows33 rows33 33 = 1 := by
  show (allGrids 33).countP
    (fun g => gridRowHints g == rows33 && gridColHints g == rows33) = 1
  apply countP_eq_one_of_unique _ _ g33 (nodup_allGrids 33)
    ((mem_allGrids 33 g33).2 (by decide)) (by decide)
  intro g hg hp
  obtain ⟨hgl, hgrows⟩ := (mem_allGrids 33 g).1 hg
  simp only [Bool.and_eq_true, beq_iff_eq] at hp
  have hhead : (g.headD []).length = 33 :=
    grid_headD_length g 33 hgl (fun r hr => (hgrows r hr).1)
  have hrowhint : ∀ i, i < 33 → deriveLineHints (g.getD i []) = rows33.getD i [] := by
    intro i hi
    have h1 : (gridRowHints g).getD i [] = rows33.getD i [] := by rw [hp.1]
    rwa [gridRowHints, getD_map deriveLineHints g i [] [] (by rw [hgl]; exact hi)] at h1
  have hcolhint : ∀ j, j < 33 →
      deriveLineHints ((transpose g).getD j []) = rows33.getD j [] := by
    intro j hj
    have h1 : (gridColHints g).getD j [] = rows33.getD j [] := by rw [hp.2]
    rwa [gridColHints, getD_map deriveLineHints (transpose g) j [] []
      (by rw [transpose_length, hhead]; exact hj)] at h1
  have hrows0 : ∀ i, i < 33 → 1 ≤ i → ∀ c ∈ g.getD i [], c = 0 := by
    intro i hi h1
    apply (deriveLineHints_eq_nil _).1
    rw [hrowhint i hi]
    obtain ⟨k, rfl⟩ : ∃ k, i = k + 1 := ⟨i - 1, by omega⟩
    exact rows33_getD_succ k
  have hcols0 : ∀ j, j < 33 → 1 ≤ j → ∀ row ∈ g, row.getD j 0 = 0 := by
    intro j hj h1 row hrow
    have hz : ∀ x ∈ (transpose g).getD j [], x = 0 := by
      apply (deriveLineHints_eq_nil _).1
      rw [hcolhint j hj]
      obtain ⟨k, rfl⟩ : ∃ k, j = k + 1 := ⟨j - 1, by omega⟩
      exact rows33_getD_succ k
    rw [transpose_getD_eq g j (by rw [hhead]; exact hj)] at hz
    exact hz _ (List.mem_map.2 ⟨row, hrow, rfl⟩)
  have hrow0mem : g.getD 0 [] ∈ g := by
    rw [List.getD_eq_getElem _ _ (by rw [hgl]; omega)]
    exact List.getElem_mem _
  obtain ⟨hrl0, hrb0⟩ := hgrows _ hrow0mem
  have hder0 : deriveLineHints (g.getD 0 []) = [1] := by
    rw [hrowhint 0 (by omega)]
    rfl
  obtain ⟨-, z, l₂, hdec, hrel⟩ := deriveLineHints_decomp _ 1 [] hrb0 hder0
  have hl₂z : ∀ c ∈ l₂, c = 0 := by
    rcases hrel with ⟨rfl, -⟩ | ⟨t, rfl, ht⟩
    · intro c hc; simp at hc
    · intro c hc
      rcases List.mem_cons.1 hc with rfl | hc2
      · rfl
      · exact (deriveLineHints_eq_nil t).1 ht c hc2
  have hlens : z + 1 + l₂.length = 33 := by
    have h := hrl0
    rw [hdec] at h
    simp at h
    omega
  have hz0 : z = 0 := by
    by_contra hz
    have hcell : (g.getD 0 []).getD z 0 = 1 := by
      rw [hdec, getD_zeros_ones, if_neg (by omega), if_pos (by omega)]
    have := hcols0 z (by omega) (by omega) _ hrow0mem
    omega
  subst hz0
  have hl₂rep : l₂ = List.replicate 32 0 := by
    have h1 : l₂ = List.replicate l₂.length 0 := List.eq_replicate_of_mem hl₂z
    have h2 : l₂.length = 32 := by omega
    rw [h2] at h1
    exact h1
  have hrow0eq : g.getD 0 [] = 1 :: List.replicate 32 0 := by
    rw [hdec, hl₂rep]
    rfl
  have hrowieq : ∀ k, k < 32 → g.getD (k + 1) [] = List.replicate 33 0 := by
    intro k hk
    have hmem : g.getD (k + 1) [] ∈ g := by
      rw [List.getD_eq_getElem _ _ (by rw [hgl]; omega)]
      exact List.getElem_mem _
    have hlen : (g.getD (k + 1) []).length = 33 := (hgrows _ hmem).1
    have h1 := List.eq_replicate_of_mem (hrows0 (k + 1) (by omega) (by omega))
    rw [hlen] at h1
    exact h1
  apply ext_getD [] g g33 (by rw [hgl]; rfl)
  intro i hi
  rw [hgl] at hi
  cases i with
  | zero =>
    rw [hrow0eq]
    rfl
  | succ k =>
    rw [hrowieq k (by omega)]
    show List.replicate 33 0 = (List.replicate 32 (List.replicate 33 0)).getD k []
    rw [getD_replicate, if_pos (by omega)]

/-! ## Claim C1 -/

/-- C1 counterexample: at length 33 the option list for the single hint
`[1]` has a duplicate — positions 0 and 32 both produce the mask 1 because
the JS shift count wraps modulo 32 — so the claim's no-duplicates part
fails for line lengths above 32. -/
theorem C1_counterexample : ¬ (buildLineMasks 33 [1]).Nodup := by decide

/-- C1 (amended to line lengths at most 32): a mask `m` is a member of
`buildLineMasks length hints` iff `m` encodes a line of that length (so
`m < 2 ^ length`) whose derived hints are exactly `hints`, and the
returned list has no duplicates. -/
theorem C1_theorem (length : Nat) (hints : List Nat) (hlen : length ≤ 32)
    (hpos : ∀ h ∈ hints, 0 < h) :
    (∀ m, m ∈ buildLineMasks length hints ↔
      (m < 2 ^ length ∧ deriveLineHints (decodeLine m length) = hints)) ∧
    (buildLineMasks length hints).Nodup := by
  refine ⟨?_, buildLineMasks_nodup length hlen hints hpos⟩
  intro m
  constructor
  · intro hm
    exact ⟨buildLineMasks_lt_two_pow length hlen hints hpos m hm,
      maskHints_of_mem length hlen hints hpos m hm⟩
  · rintro ⟨hlt, hder⟩
    exact (buildLineMasks_mem_iff length hlen hints hpos m).2
      ⟨decodeLine m length, decodeLine_length m length, decodeLine_isBool m length,
        hder, encode_decodeLine m length hlt⟩

theorem C1_witness :
    ((4 : Nat) ≤ 32 ∧ (∀ h ∈ ([2] : List Nat), 0 < h)) ∧
    ((∀ m, m ∈ buildLineMasks 4 [2] ↔
      (m < 2 ^ 4 ∧ deriveLineHints (decodeLine m 4) = [2])) ∧
    (buildLineMasks 4 [2]).Nodup) :=
  ⟨⟨by omega, by decide⟩, C1_theorem 4 [2] (by omega) (by decide)⟩

/-! ## Claim C2 -/

/-- C2 counterexample: at size 33 the solver undercounts.  The hint
instance `rows33` × `rows33` has exactly one solving grid, but
`countSolutions` returns 0 (every row option of the empty-hinted rows is
mask 0, while the filled corner forces column masks that the wrapped
encoding cannot match), so the claimed `min limit count` equality fails
for sizes above 32. -/
theorem C2_counterexample :
    countSolutions rows33 rows33 33 2 = 0 ∧
    solutionCount rows33 rows33 33 = 1 ∧
    countSolutions rows33 rows33 33 2 ≠ min 2 (solutionCount rows33 rows33 33) := by
  have h0 : countSolutions rows33 rows33 33 2 = 0 := by decide
  refine ⟨h0, solutionCount_rows33, ?_⟩
  rw [h0, solutionCount_rows33]
  decide

/-- C2 (amended to sizes at most 32, with size-many rows and columns of
positive hints): `countSolutions` returns exactly
`min limit (number of solving grids)`, hence never more than `limit`, and
`hasUniqueSolution` holds iff `countSolutions` with limit 2 returns 1. -/
theorem C2_theorem (rows cols : List (List Nat)) (size limit : Nat)
    (hsize : size ≤ 32) (hrl : rows.length = size) (hcl : cols.length = size)
    (hrpos : ∀ hs ∈ rows, ∀ h ∈ hs, 0 < h) (hcpos : ∀ hs ∈ cols, ∀ h ∈ hs, 0 < h) :
    countSolutions rows cols size limit = min limit (solutionCount rows cols size) ∧
    countSolutions rows cols size limit ≤ limit ∧
    (hasUniqueSolution rows cols size = true ↔ countSolutions rows cols size 2 = 1) := by
  have h := countSolutions_eq_min rows cols size limit hsize hrl hcl hrpos hcpos
  refine ⟨h, by omega, ?_⟩
  simp [hasUniqueSolution]

theorem C2_witness :
    ((2 : Nat) ≤ 32 ∧ ([[1], [1]] : List (List Nat)).length = 2 ∧
      ([[1], [1]] : List (List Nat)).length = 2 ∧
      (∀ hs ∈ ([[1], [1]] : List (List Nat)), ∀ h ∈ hs, 0 < h) ∧
      (∀ hs ∈ ([[1], [1]] : List (List Nat)), ∀ h ∈ hs, 0 < h)) ∧
    (countSolutions [[1], [1]] [[1], [1]] 2 2 =
        min 2 (solutionCount [[1], [1]] [[1], [1]] 2) ∧
      countSolutions [[1], [1]] [[1], [1]] 2 2 ≤ 2 ∧
      (hasUniqueSolution [[1], [1]] [[1], [1]] 2 = true ↔
        countSolutions [[1], [1]] [[1], [1]] 2 2 = 1)) :=
  ⟨⟨by omega, by decide, by decide, by decide, by decide⟩,
    C2_theorem [[1], [1]] [[1], [1]] 2 2 (by omega) (by decide) (by decide)
      (by decide) (by decide)⟩

/-! ## Claim C6 -/

/-- C6: when the hints cannot fit — block sum plus mandatory gaps exceeds
the length, i.e. `length + 1 < sum + count` — `buildLineMasks` returns the
empty list; and `countSolutions` returns 0 outright whenever some row's or
some column's option list is empty. -/
theorem C6_theorem (length : Nat) (hints : List Nat)
    (rows cols : List (List Nat)) (size limit : Nat)
    (hgap : length + 1 < hints.sum + hints.length)
    (hempty :
      (rows.map (fun hintLine => buildLineMasks size hintLine)).any
        (fun options => options.length == 0) = true ∨
      (cols.map (fun hintLine => buildLineMasks size hintLine)).any
        (fun options => options.length == 0) = true) :
    buildLineMasks length hints = [] ∧ countSolutions rows cols size limit = 0 := by
  constructor
  · cases hints with
    | nil => simp at hgap
    | cons b rest =>
      cases rest with
      | nil =>
        have hc : length + 1 - (b + 0 + 0) = 0 := by
          simp only [List.sum_cons, List.sum_nil, List.length_cons,
            List.length_nil] at hgap
          omega
        rw [show buildLineMasks length [b] =
          (List.range' 0 (length + 1 - (b + 0 + 0))).map
            (fun position => addBlock 0 position b) from rfl, hc]
        rfl
      | cons b2 rest2 =>
        have hc : length + 1 - (b + ((b2 :: rest2).sum + (b2 :: rest2).length) + 0)
            = 0 := by
          simp only [List.sum_cons, List.length_cons] at hgap ⊢
          omega
        rw [show buildLineMasks length (b :: b2 :: rest2) =
          (List.range' 0
            (length + 1 - (b + ((b2 :: rest2).sum + (b2 :: rest2).length) + 0))).flatMap
            (fun position => place length b2 rest2 (position + b + 1)
              (addBlock 0 position b)) from rfl, hc]
        rfl
  · simp only [countSolutions]
    have hcond : ((rows.map (fun hintLine => buildLineMasks size hintLine)).any
        (fun options => options.length == 0)
        || (cols.map (fun hintLine => buildLineMasks size hintLine)).any
          (fun options => options.length == 0)) = true := by
      rcases hempty with h | h
      · rw [h, Bool.true_or]
      · rw [h, Bool.or_true]
    rw [if_pos hcond]

theorem C6_witness :
    ((3 : Nat) + 1 < ([2, 2] : List Nat).sum + ([2, 2] : List Nat).length ∧
      (([[2, 2], [], []] : List (List Nat)).map
        (fun hintLine => buildLineMasks 3 hintLine)).any
        (fun options => options.length == 0) = true) ∧
    (buildLineMasks 3 [2, 2] = [] ∧
      countSolutions [[2, 2], [], []] [[], [], []] 3 2 = 0) :=
  ⟨⟨by decide, by decide⟩,
    C6_theorem 3 [2, 2] [[2, 2], [], []] [[], [], []] 3 2 (by decide)
      (Or.inl (by decide))⟩

/-! ## Claim C9 -/

/-- C9: the solver's accumulated `1 << i` encoding (`encodeLineJS`) is
injective on boolean lines of length at most 31 (indeed the proof only
needs length at most 32), but because the shift count wraps modulo 32
there is a length of at least 32 — here 33 — where two distinct lines
collide (cell 0 and cell 32 share bit 0), and correspondingly
`buildLineMasks` at length 33 emits a duplicated option, so the mask
representation is only faithful below the 32-bit boundary. -/
theorem C9_theorem :
    (∀ l1 l2 : List Nat, IsBoolLine l1 → IsBoolLine l2 → l1.length ≤ 31 →
      l1.length = l2.length → encodeLineJS l1 = encodeLineJS l2 → l1 = l2) ∧
    (encodeLineJS (1 :: List.replicate 32 0) =
        encodeLineJS (List.replicate 32 0 ++ [1]) ∧
      (1 :: List.replicate 32 0) ≠ (List.replicate 32 0 ++ [1])) ∧
    ¬ (buildLineMasks 33 [1]).Nodup := by
  refine ⟨?_, by decide, by decide⟩
  intro l1 l2 hb1 hb2 hlen hleq henc
  have h1 := decode_encodeLine l1 hb1
  have h2 := decode_encodeLine l2 hb2
  rw [encodeLineJS_eq_encodeLine l1 (by omega),
    encodeLineJS_eq_encodeLine l2 (by omega)] at henc
  rw [← h1, ← h2, henc, hleq]

/-! ## Claim C10 -/

/-- C10: for lengths at most 31 and positive hints, every mask returned by
`buildLineMasks` has all of its set bits at positions strictly below the
length, equivalently is strictly less than `2 ^ length`. -/
theorem C10_theorem (length : Nat) (hints : List Nat) (hlen : length ≤ 31)
    (hpos : ∀ h ∈ hints, 0 < h) (m : Nat) (hm : m ∈ buildLineMasks length hints) :
    (∀ i, m.testBit i = true → i < length) ∧ m < 2 ^ length := by
  have hlt := buildLineMasks_lt_two_pow length (by omega) hints hpos m hm
  refine ⟨?_, hlt⟩
  intro i hi
  by_contra hge
  have hpow : m < 2 ^ i :=
    lt_of_lt_of_le hlt (Nat.pow_le_pow_right (by omega) (by omega))
  rw [Nat.testBit_lt_two_pow hpow] at hi
  exact Bool.false_ne_true hi

theorem C10_witness :
    ((4 : Nat) ≤ 31 ∧ (∀ h ∈ ([2] : List Nat), 0 < h) ∧
      3 ∈ buildLineMasks 4 [2]) ∧
    ((∀ i, (3 : Nat).testBit i = true → i < 4) ∧ (3 : Nat) < 2 ^ 4) :=
  ⟨⟨by omega, by decide, by decide⟩,
    C10_theorem 4 [2] (by omega) (by decide) 3 (by decide)⟩

/-! ## The puzzle record and the generator worker (puzzleWorker.ts) -/

/-- The `Puzzle` record of the source. -/
structure Puzzle where
  name : String
  size : Nat
  rows : List (List Nat)
  cols : List (List Nat)
  solution : List (List Nat)

/-- The candidate name the worker passes to `buildPuzzleFromGrid`. -/
def puzzleName (size : Nat) : String :=
  "Random practice " ++ toString size ++ "x" ++ toString size

/-- `buildPuzzleFromGrid(grid, name)` from the source. -/
def buildPuzzleFromGrid (grid : List (List Nat)) (name : String) : Puzzle :=
  { name := name
    size := grid.length
    rows := grid.map (fun line => deriveLineHints line)
    cols := (transpose grid).map (fun line => deriveLineHints line)
    solution := grid }

/-- The exhaustion message built by both the worker and
`generateRandomPuzzle`. -/
def exhaustionMessage (size maxAttempts : Nat) : String :=
  "Unable to find a unique " ++ toString size ++ "x" ++ toString size ++
    " puzzle after " ++ toString maxAttempts ++ " attempts."

/-- The task message the pool posts to a worker.  The pool sends a
`requireUnique` field; the worker's handler destructures only
`id`, `size`, `maxAttempts` and `workerIndex` from it. -/
structure WorkerRequest where
  id : Nat
  size : Nat
  maxAttempts : Nat
  workerIndex : Nat
  requireUnique : Bool

/-- What the worker posts back: a success result carrying the puzzle, a
failure result carrying a message, or a progress message carrying the
attempt number. -/
inductive WorkerResponse where
  | success : Puzzle → WorkerResponse
  | failure : String → WorkerResponse
  | progress : Nat → WorkerResponse

/-- The worker's attempt loop (`for attempt = 1 .. maxAttempts`), with the
random grid of each attempt supplied by `draw` and the cancellation flag
sampled per attempt by `cancelled`.  Each non-accepted attempt posts a
progress message; the first candidate passing `hasUniqueSolution` is
posted as a success; an exhausted budget posts the failure message.
The recursion is on the number of remaining attempts. -/
def workerLoop (size maxAttempts : Nat) (draw : Nat → List (List Nat))
    (cancelled : Nat → Bool) : Nat → Nat → List WorkerResponse
  | _, 0 => [WorkerResponse.failure (exhaustionMessage size maxAttempts)]
  | attempt, remaining + 1 =>
    if cancelled attempt then
      [WorkerResponse.failure "Puzzle generation cancelled."]
    else if hasUniqueSolution
        (buildPuzzleFromGrid (draw attempt) (puzzleName size)).rows
        (buildPuzzleFromGrid (draw attempt) (puzzleName size)).cols size then
      [WorkerResponse.success (buildPuzzleFromGrid (draw attempt) (puzzleName size))]
    else
      WorkerResponse.progress attempt ::
        workerLoop size maxAttempts draw cancelled (attempt + 1) remaining

/-- The worker's message handler on a task request: the body reads only
`req.size`, `req.maxAttempts` (and the identifiers) — `req.requireUnique`
is never read, exactly as the source handler never destructures it. -/
def runWorkerTask (req : WorkerRequest) (draw : Nat → List (List Nat))
    (cancelled : Nat → Bool) : List WorkerResponse :=
  workerLoop req.size req.maxAttempts draw cancelled 1 req.maxAttempts

/-- `generateRandomPuzzle`'s attempt loop (the synchronous fallback path):
`Except.error` models the thrown exhaustion error, which the calling
controller catches and reports. -/
def generateRandomPuzzleLoop (size maxAttempts : Nat)
    (draw : Nat → List (List Nat)) : Nat → Except String Puzzle
  | 0 => Except.error (exhaustionMessage size maxAttempts)
  | remaining + 1 =>
    if hasUniqueSolution
        (buildPuzzleFromGrid (draw (maxAttempts - (remaining + 1))) (puzzleName size)).rows
        (buildPuzzleFromGrid (draw (maxAttempts - (remaining + 1))) (puzzleName size)).cols
        size then
      Except.ok (buildPuzzleFromGrid (draw (maxAttempts - (remaining + 1))) (puzzleName size))
    else generateRandomPuzzleLoop size maxAttempts draw remaining

theorem workerLoop_exhaust (size maxAttempts : Nat) (draw : Nat → List (List Nat))
    (hnone : ∀ attempt, hasUniqueSolution
      (buildPuzzleFromGrid (draw attempt) (puzzleName size)).rows
      (buildPuzzleFromGrid (draw attempt) (puzzleName size)).cols size = false) :
    ∀ (remaining attempt : Nat),
      workerLoop size maxAttempts draw (fun _ => false) attempt remaining =
        (List.range' attempt remaining).map WorkerResponse.progress ++
          [WorkerResponse.failure (exhaustionMessage size maxAttempts)] := by
  intro remaining
  induction remaining with
  | zero => intro attempt; rfl
  | succ n ih =>
    intro attempt
    simp only [workerLoop, hnone attempt, Bool.false_eq_true, if_false, ih]
    rfl

theorem generateRandomPuzzleLoop_exhaust (size maxAttempts : Nat)
    (draw : Nat → List (List Nat))
    (hnone : ∀ attempt, hasUniqueSolution
      (buildPuzzleFromGrid (draw attempt) (puzzleName size)).rows
      (buildPuzzleFromGrid (draw attempt) (puzzleName size)).cols size = false) :
    ∀ remaining, generateRandomPuzzleLoop size maxAttempts draw remaining =
      Except.error (exhaustionMessage size maxAttempts) := by
  intro remaining
  induction remaining with
  | zero => rfl
  | succ n ih =>
    simp only [generateRandomPuzzleLoop, hnone, Bool.false_eq_true, if_false, ih]

/-! ## Claim C3 -/

/-- C3 (code bug): the worker's search loop ignores the `requireUnique`
flag of its task message — the handler never reads that field, so its
behaviour is identical for `requireUnique = false` and `true` (first
conjunct, by reflexivity of the embedded handler).  In particular, with
`requireUnique = false`, a budget of one attempt and a drawn candidate
whose hints admit two solutions (the 2×2 diagonal), the worker does not
accept the first drawn candidate as the spec requires: it posts a
progress message and then an exhaustion failure (second conjunct). -/
theorem C3_theorem :
    (∀ (id size maxAttempts workerIndex : Nat) (ru : Bool)
      (draw : Nat → List (List Nat)) (cancelled : Nat → Bool),
      runWorkerTask ⟨id, size, maxAttempts, workerIndex, ru⟩ draw cancelled =
        runWorkerTask ⟨id, size, maxAttempts, workerIndex, true⟩ draw cancelled) ∧
    runWorkerTask ⟨0, 2, 1, 0, false⟩ (fun _ => [[1, 0], [0, 1]]) (fun _ => false) =
      [WorkerResponse.progress 1,
        WorkerResponse.failure (exhaustionMessage 2 1)] :=
  ⟨fun _ _ _ _ _ _ _ => rfl, rfl⟩

/-! ## Claim C7 -/

/-- C7: when every drawn candidate fails the uniqueness check and the task
is never cancelled, the worker loop terminates with a reported failure —
it posts one progress message per attempt and then exactly the failure
response whose message (the concatenation in the last conjunct) names the
size and the attempt budget; the synchronous `generateRandomPuzzle` loop
likewise returns the thrown error as a value rather than diverging. -/
theorem C7_theorem (size maxAttempts : Nat) (draw : Nat → List (List Nat))
    (id workerIndex : Nat) (ru : Bool)
    (hnone : ∀ attempt, hasUniqueSolution
      (buildPuzzleFromGrid (draw attempt) (puzzleName size)).rows
      (buildPuzzleFromGrid (draw attempt) (puzzleName size)).cols size = false) :
    runWorkerTask ⟨id, size, maxAttempts, workerIndex, ru⟩ draw (fun _ => false) =
      (List.range' 1 maxAttempts).map WorkerResponse.progress ++
        [WorkerResponse.failure (exhaustionMessage size maxAttempts)] ∧
    generateRandomPuzzleLoop size maxAttempts draw maxAttempts =
      Except.error (exhaustionMessage size maxAttempts) ∧
    exhaustionMessage size maxAttempts =
      "Unable to find a unique " ++ toString size ++ "x" ++ toString size ++
        " puzzle after " ++ toString maxAttempts ++ " attempts." :=
  ⟨workerLoop_exhaust size maxAttempts draw hnone maxAttempts 1,
    generateRandomPuzzleLoop_exhaust size maxAttempts draw hnone maxAttempts, rfl⟩

theorem diag2_not_unique : hasUniqueSolution
    (buildPuzzleFromGrid [[1, 0], [0, 1]] (puzzleName 2)).rows
    (buildPuzzleFromGrid [[1, 0], [0, 1]] (puzzleName 2)).cols 2 = false := by decide

theorem C7_witness :
    (∀ attempt : Nat, hasUniqueSolution
      (buildPuzzleFromGrid [[1, 0], [0, 1]] (puzzleName 2)).rows
      (buildPuzzleFromGrid [[1, 0], [0, 1]] (puzzleName 2)).cols 2 = false) ∧
    (runWorkerTask ⟨0, 2, 1, 0, true⟩ (fun _ => [[1, 0], [0, 1]]) (fun _ => false) =
      (List.range' 1 1).map WorkerResponse.progress ++
        [WorkerResponse.failure (exhaustionMessage 2 1)] ∧
    generateRandomPuzzleLoop 2 1 (fun _ => [[1, 0], [0, 1]]) 1 =
      Except.error (exhaustionMessage 2 1) ∧
    exhaustionMessage 2 1 =
      "Unable to find a unique " ++ toString 2 ++ "x" ++ toString 2 ++
        " puzzle after " ++ toString 1 ++ " attempts.") :=
  ⟨fun _ => diag2_not_unique,
    C7_theorem 2 1 (fun _ => [[1, 0], [0, 1]]) 0 0 true (fun _ => diag2_not_unique)⟩

/-! ## The worker pool coordinator (puzzleWorkerPool.ts)

The pool is modelled as a state record plus functions returning the new
state and the list of observable effects (promise settlement, messages
posted to workers, emitted events, worker terminations).  Workers are
identified by numeric handles drawn from a fresh-handle counter; the two
`Map`s become association lists whose newest entries come first, which
matches `Map.set`/`Map.get` under `List.lookup`. -/

/-- The `PendingGeneration` record (its `resolve`/`reject` callbacks are
modelled by the `resolve`/`reject` effects below). -/
structure PendingGeneration where
  remaining : Nat
  generationId : Nat
  maxAttemptsPerWorker : Nat

/-- The pool's private mutable fields. -/
structure PoolState where
  workerPool : List Nat
  workerById : List (Nat × Nat)
  workerGenerationMap : List (Nat × Nat)
  pendingGeneration : Option PendingGeneration
  activeWorkerIds : List Nat
  generationId : Nat
  requestId : Nat
  desiredCount : Nat
  nextWorkerHandle : Nat

/-- The events the pool forwards to its `onEvent` callback. -/
inductive PoolEvent where
  | progress : Nat → Nat → Nat → Nat → PoolEvent
  | result : Puzzle → PoolEvent
  | error : String → PoolEvent

/-- Observable effects of a pool operation, in order. -/
inductive PoolEffect where
  | resolve : Puzzle → PoolEffect
  | reject : String → PoolEffect
  | postTask : Nat → Nat → Nat → Nat → Nat → Bool → PoolEffect
  | postCancel : Nat → Nat → PoolEffect
  | event : PoolEvent → PoolEffect
  | terminate : Nat → PoolEffect

/-- A worker notification as the pool's message handler reads it:
a progress message `(id, attempt, maxAttempts, elapsed, workerIndex)` or a
result message `(id, ok, puzzle?, message?)`. -/
inductive PoolMessage where
  | progress : Nat → Nat → Nat → Nat → Nat → PoolMessage
  | result : Nat → Bool → Option Puzzle → Option String → PoolMessage

/-- The `data.id` of a worker notification. -/
def msgId : PoolMessage → Nat
  | .progress id _ _ _ _ => id
  | .result id _ _ _ => id

/-- `resetGenerationState()`. -/
def resetGenerationState (s : PoolState) : PoolState :=
  { s with
      pendingGeneration := none, activeWorkerIds := [],
      workerGenerationMap := [], workerById := [] }

/-- `terminateAll()`: terminates every pooled worker and clears all
generation state. -/
def terminateAll (s : PoolState) : PoolState × List PoolEffect :=
  ({ s with
      workerPool := [], workerById := [], workerGenerationMap := [],
      pendingGeneration := none, activeWorkerIds := [] },
    s.workerPool.map PoolEffect.terminate)

/-- `setWorkerCount(count)` (in an environment where `Worker` exists):
records the desired count, terminates the old workers and spawns `count`
fresh ones. -/
def setWorkerCount (s : PoolState) (count : Nat) : PoolState × List PoolEffect :=
  let r := terminateAll { s with desiredCount := count }
  ({ r.1 with
      workerPool := (List.range count).map (fun i => r.1.nextWorkerHandle + i),
      nextWorkerHandle := r.1.nextWorkerHandle + count }, r.2)

/-- `cancelActiveWorkers()`: posts a cancel message to every active
request's worker, then clears the generation state. -/
def cancelActiveWorkers (s : PoolState) : PoolState × List PoolEffect :=
  (resetGenerationState s,
    s.activeWorkerIds.filterMap (fun id =>
      (s.workerById.lookup id).map (fun w => PoolEffect.postCancel w id)))

/-- `restartWorkers()`. -/
def restartWorkers (s : PoolState) : PoolState × List PoolEffect :=
  let r := terminateAll s
  if 0 < s.desiredCount then
    let r2 := setWorkerCount r.1 s.desiredCount
    (r2.1, r.2 ++ r2.2)
  else (r.1, r.2)

/-- How `generate` settles synchronously: an immediate rejection with a
message, or a started generation awaiting worker results. -/
inductive GenerateOutcome where
  | rejected : String → GenerateOutcome
  | started : GenerateOutcome

/-- `generate(size, maxAttemptsPerWorker, requireUnique)`: rejects when
the pool is empty, rejects when a generation is pending, and otherwise
bumps the generation id, records the pending generation and dispatches
one task per pooled worker (fresh request ids, both maps extended, the
`requireUnique` flag included in each posted task). -/
def generate (s : PoolState) (size maxAttemptsPerWorker : Nat)
    (requireUnique : Bool) : PoolState × List PoolEffect × GenerateOutcome :=
  if s.workerPool.length = 0 then
    (s, [], GenerateOutcome.rejected "Puzzle generator worker not available.")
  else
    match s.pendingGeneration with
    | some _ =>
      (s, [], GenerateOutcome.rejected "Puzzle generation already in progress.")
    | none =>
      let n := s.workerPool.length
      let genId := s.generationId + 1
      let ids := (List.range n).map (fun i => s.requestId + i)
      ({ s with
          generationId := genId,
          pendingGeneration := some ⟨n, genId, maxAttemptsPerWorker⟩,
          activeWorkerIds := ids,
          workerGenerationMap := ids.map (fun id => (id, genId)) ++ s.workerGenerationMap,
          workerById := (List.range n).map (fun i => (s.requestId + i, s.workerPool.getD i 0))
            ++ s.workerById,
          requestId := s.requestId + n },
        (List.range n).map (fun i =>
          PoolEffect.postTask (s.workerPool.getD i 0) (s.requestId + i) size
            maxAttemptsPerWorker i requireUnique),
        GenerateOutcome.started)

/-- `handleWorkerMessage`: drops the message when nothing is pending or
when the message's request id maps to a generation other than the pending
one; a progress message is forwarded as an event; a successful result is
forwarded, resolves the promise and recycles the workers; any other
result decrements the remaining-workers counter and, at zero, emits and
rejects with the result's message. -/
def handleWorkerMessage (s : PoolState) (msg : PoolMessage) :
    PoolState × List PoolEffect :=
  match s.pendingGeneration with
  | none => (s, [])
  | some pending =>
    if s.workerGenerationMap.lookup (msgId msg) ≠ some pending.generationId then
      (s, [])
    else
      match msg with
      | .progress _ attempt maxAttempts elapsed workerIndex =>
        (s, [PoolEffect.event (PoolEvent.progress attempt maxAttempts elapsed workerIndex)])
      | .result _ ok puzzle message =>
        match ok, puzzle with
        | true, some p =>
          let r := cancelActiveWorkers s
          let r2 := restartWorkers r.1
          (r2.1, [PoolEffect.event (PoolEvent.result p), PoolEffect.resolve p]
            ++ r.2 ++ r2.2)
        | true, none =>
          let remaining := pending.remaining - 1
          if remaining = 0 then
            (resetGenerationState s,
              [PoolEffect.event (PoolEvent.error (message.getD "Unable to build puzzle.")),
                PoolEffect.reject (message.getD "Unable to build puzzle.")])
          else
            ({ s with pendingGeneration := some { pending with remaining := remaining } }, [])
        | false, _ =>
          let remaining := pending.remaining - 1
          if remaining = 0 then
            (resetGenerationState s,
              [PoolEffect.event (PoolEvent.error (message.getD "Unable to build puzzle.")),
                PoolEffect.reject (message.getD "Unable to build puzzle.")])
          else
            ({ s with pendingGeneration := some { pending with remaining := remaining } }, [])

/-! ## Claim C4 -/

/-- C4: with a generation pending, a worker notification (progress or
result) whose request id is not mapped to the pending generation's epoch
is discarded outright — the handler returns the state unchanged and
produces no effect at all: no resolution, no rejection, no event, no
change to the pending generation, its remaining counter, or the worker
maps. -/
theorem C4_theorem (s : PoolState) (p : PendingGeneration) (msg : PoolMessage)
    (hpend : s.pendingGeneration = some p)
    (hstale : s.workerGenerationMap.lookup (msgId msg) ≠ some p.generationId) :
    handleWorkerMessage s msg = (s, []) := by
  simp only [handleWorkerMessage, hpend]
  rw [if_pos hstale]

/-- A concrete pool state: one worker (handle 100), one stale map entry
from generation 1, a pending generation with epoch 2. -/
def sampleState : PoolState :=
  { workerPool := [100]
    workerById := [(0, 100)]
    workerGenerationMap := [(0, 1)]
    pendingGeneration := some ⟨1, 2, 300⟩
    activeWorkerIds := [0]
    generationId := 2
    requestId := 1
    desiredCount := 1
    nextWorkerHandle := 101 }

theorem C4_witness :
    (sampleState.pendingGeneration = some ⟨1, 2, 300⟩ ∧
      sampleState.workerGenerationMap.lookup
        (msgId (PoolMessage.progress 0 5 300 1 0)) ≠
        some (PendingGeneration.generationId ⟨1, 2, 300⟩)) ∧
    handleWorkerMessage sampleState (PoolMessage.progress 0 5 300 1 0) =
      (sampleState, []) :=
  ⟨⟨rfl, by decide⟩,
    C4_theorem sampleState ⟨1, 2, 300⟩ (PoolMessage.progress 0 5 300 1 0) rfl (by decide)⟩

/-! ## Claim C5 -/

/-- C5: calling `generate` while a generation is pending (and the pool is
non-empty, which the pool's own guard order requires for the busy branch)
rejects synchronously with the busy message and does nothing else: the
returned state is the input state — the generation id is not bumped, no
pending field changes, nothing is queued — and no task is posted to any
worker. -/
theorem C5_theorem (s : PoolState) (p : PendingGeneration)
    (size maxAttempts : Nat) (ru : Bool)
    (hpend : s.pendingGeneration = some p) (hpool : ¬ s.workerPool.length = 0) :
    generate s size maxAttempts ru =
      (s, [], GenerateOutcome.rejected "Puzzle generation already in progress.") := by
  simp only [generate, hpend]
  rw [if_neg hpool]

theorem C5_witness :
    (sampleState.pendingGeneration = some ⟨1, 2, 300⟩ ∧
      ¬ sampleState.workerPool.length = 0) ∧
    generate sampleState 10 300 true =
      (sampleState, [],
        GenerateOutcome.rejected "Puzzle generation already in progress.") :=
  ⟨⟨rfl, by decide⟩,
    C5_theorem sampleState ⟨1, 2, 300⟩ 10 300 true rfl (by decide)⟩

/-! ## The random grid generator (randomGrid)

`Math.random()` is modelled as a stream `rand : Nat → ℚ` of draws in
`[0, 1)`, consumed in the source's call order: draw 0 picks the density,
draws `1 .. size²` fill the cells row-major, and — only when the fill
came out empty — draws `size² + 1` and `size² + 2` pick the forced cell's
row and column (`Math.floor(Math.random() * size)`). -/

/-- The independent random fill: cell `(r, c)` is 1 iff its draw is below
the density drawn at index 0. -/
def rawGrid (size : Nat) (densityRange : ℚ × ℚ) (rand : Nat → ℚ) :
    List (List Nat) :=
  (List.range size).map (fun r =>
    (List.range size).map (fun c =>
      if rand (1 + r * size + c) <
          densityRange.1 + rand 0 * (densityRange.2 - densityRange.1) then 1 else 0))

/-- The `filled` counter of the source: the number of 1-cells (cells are
0/1, so the sum of all cells). -/
def gridFilledCount (grid : List (List Nat)) : Nat :=
  (grid.map (fun row => row.sum)).sum

/-- The forced cell's row index, `Math.floor(Math.random() * size)`. -/
def forcedRow (size : Nat) (rand : Nat → ℚ) : Nat :=
  (Int.floor (rand (1 + size * size) * size)).toNat

/-- The forced cell's column index. -/
def forcedCol (size : Nat) (rand : Nat → ℚ) : Nat :=
  (Int.floor (rand (2 + size * size) * size)).toNat

/-- `randomGrid(size, densityRange)`: the independent fill, with one
forced cell when the fill is entirely empty. -/
def randomGrid (size : Nat) (densityRange : ℚ × ℚ) (rand : Nat → ℚ) :
    List (List Nat) :=
  if gridFilledCount (rawGrid size densityRange rand) = 0 then
    (rawGrid size densityRange rand).set (forcedRow size rand)
      (((rawGrid size densityRange rand).getD (forcedRow size rand) []).set
        (forcedCol size rand) 1)
  else rawGrid size densityRange rand

theorem sum_set_of_sum_zero (l : List Nat) :
    ∀ (i : Nat) (v : Nat), l.sum = 0 → i < l.length → (l.set i v).sum = v := by
  induction l with
  | nil => intro i v _ hi; simp at hi
  | cons a t ih =>
    intro i v hsum hi
    simp only [List.sum_cons] at hsum
    cases i with
    | zero =>
      simp only [List.set]
      simp only [List.sum_cons]
      have ht : t.sum = 0 := by omega
      omega
    | succ j =>
      simp only [List.set]
      simp only [List.sum_cons]
      have ha : a = 0 := by omega
      rw [ih j v (by omega) (by simpa using hi), ha]
      omega

theorem floor_toNat_lt (q : ℚ) (size : Nat) (h1 : 1 ≤ size) (hq : q < 1) :
    (Int.floor (q * size)).toNat < size := by
  have hs : (0 : ℚ) < size := by exact_mod_cast h1
  have hlt : q * size < ((size : ℤ) : ℚ) := by
    push_cast
    calc q * size < 1 * size := mul_lt_mul_of_pos_right hq hs
    _ = size := one_mul _
  have hf : Int.floor (q * size) < (size : ℤ) := Int.floor_lt.2 hlt
  omega

theorem rawGrid_length (size : Nat) (densityRange : ℚ × ℚ) (rand : Nat → ℚ) :
    (rawGrid size densityRange rand).length = size := by
  simp [rawGrid]

theorem rawGrid_rows (size : Nat) (densityRange : ℚ × ℚ) (rand : Nat → ℚ) :
    ∀ row ∈ rawGrid size densityRange rand, row.length = size ∧ IsBoolLine row := by
  intro row hrow
  obtain ⟨r, -, rfl⟩ := List.mem_map.1 hrow
  refine ⟨by simp, ?_⟩
  intro c hc
  obtain ⟨j, -, rfl⟩ := List.mem_map.1 hc
  split
  · exact Or.inr rfl
  · exact Or.inl rfl

/-! ## Claim C8 -/

/-- C8: for any size at least 1, any density band and any random stream
with draws in `[0, 1)`, `randomGrid` returns a size×size 0/1 grid with at
least one filled cell; and whenever the independent fill comes out
entirely empty, the returned grid has exactly one filled cell (the
forced one). -/
theorem C8_theorem (size : Nat) (densityRange : ℚ × ℚ) (rand : Nat → ℚ)
    (hsize : 1 ≤ size) (hrand : ∀ n, 0 ≤ rand n ∧ rand n < 1) :
    (randomGrid size densityRange rand).length = size ∧
    (∀ row ∈ randomGrid size densityRange rand, row.length = size ∧ IsBoolLine row) ∧
    0 < gridFilledCount (randomGrid size densityRange rand) ∧
    (gridFilledCount (rawGrid size densityRange rand) = 0 →
      gridFilledCount (randomGrid size densityRange rand) = 1) := by
  have hrow := floor_toNat_lt (rand (1 + size * size)) size hsize
    (hrand (1 + size * size)).2
  have hcol := floor_toNat_lt (rand (2 + size * size)) size hsize
    (hrand (2 + size * size)).2
  by_cases hzero : gridFilledCount (rawGrid size densityRange rand) = 0
  · have hgr : randomGrid size densityRange rand =
        (rawGrid size densityRange rand).set (forcedRow size rand)
          (((rawGrid size densityRange rand).getD (forcedRow size rand) []).set
            (forcedCol size rand) 1) := by
      rw [randomGrid, if_pos hzero]
    have hallzero : ∀ x ∈ (rawGrid size densityRange rand).map
        (fun row => row.sum), x = 0 := List.sum_eq_zero_iff.1 hzero
    have holdmem : (rawGrid size densityRange rand).getD (forcedRow size rand) []
        ∈ rawGrid size densityRange rand := by
      rw [List.getD_eq_getElem _ _ (by rw [rawGrid_length]; exact hrow)]
      exact List.getElem_mem _
    obtain ⟨holdlen, holdbool⟩ := rawGrid_rows size densityRange rand _ holdmem
    have holdsum : ((rawGrid size densityRange rand).getD (forcedRow size rand) []).sum
        = 0 := hallzero _ (List.mem_map.2 ⟨_, holdmem, rfl⟩)
    have hnewsum : (((rawGrid size densityRange rand).getD (forcedRow size rand) []).set
        (forcedCol size rand) 1).sum = 1 :=
      sum_set_of_sum_zero _ _ _ holdsum (by rw [holdlen]; exact hcol)
    have hcount : gridFilledCount (randomGrid size densityRange rand) = 1 := by
      rw [hgr, gridFilledCount, List.map_set,
        sum_set_of_sum_zero _ _ _ hzero (by rw [List.length_map, rawGrid_length]; exact hrow),
        hnewsum]
    refine ⟨?_, ?_, by omega, fun _ => hcount⟩
    · rw [hgr, List.length_set, rawGrid_length]
    · intro row hmem
      rw [hgr] at hmem
      rcases List.mem_or_eq_of_mem_set hmem with hmem2 | rfl
      · exact rawGrid_rows size densityRange rand row hmem2
      · refine ⟨by rw [List.length_set, holdlen], ?_⟩
        intro c hc
        rcases List.mem_or_eq_of_mem_set hc with hc2 | rfl
        · exact holdbool c hc2
        · exact Or.inr rfl
  · have hgr : randomGrid size densityRange rand = rawGrid size densityRange rand := by
      rw [randomGrid, if_neg hzero]
    rw [hgr]
    exact ⟨rawGrid_length size densityRange rand, rawGrid_rows size densityRange rand,
      by omega, fun h => absurd h hzero⟩

theorem C8_witness :
    ((1 : Nat) ≤ 1 ∧ (∀ n : Nat, 0 ≤ (0 : ℚ) ∧ (0 : ℚ) < 1)) ∧
    ((randomGrid 1 (0, 0) (fun _ => 0)).length = 1 ∧
    (∀ row ∈ randomGrid 1 (0, 0) (fun _ => 0), row.length = 1 ∧ IsBoolLine row) ∧
    0 < gridFilledCount (randomGrid 1 (0, 0) (fun _ => 0)) ∧
    (gridFilledCount (rawGrid 1 (0, 0) (fun _ => 0)) = 0 →
      gridFilledCount (randomGrid 1 (0, 0) (fun _ => 0)) = 1)) :=
  ⟨⟨le_refl 1, fun _ => ⟨le_refl 0, by norm_num⟩⟩,
    C8_theorem 1 (0, 0) (fun _ => 0) (le_refl 1) (fun _ => ⟨le_refl 0, by norm_num⟩)⟩

end Multicross
